import Mathlib

/-!
Shallow embedding of the agent-translate document-translation pipeline.

The Python sources embedded here are:
- `src/processors/xlsx_processor.py` (XLSXProcessor)
- `src/processors/pptx_processor.py` (PPTXProcessor)
- `src/processors/base.py` / `src/processors/txt_processor.py`
- `src/translate/openai_translator.py` (OpenAITranslator)
- `src/core/tools/pptx_tools.py` (PPTXReplaceTool) and `src/core/react_agent.py`
- `src/api/v1/services/session_service.py` (SessionService)
- `src/api/v1/services/session_based_translation_service.py`
- `src/core/translation_engine.py` (TranslationEngine)

Modelling conventions:
- Python strings are Lean `String`s; case mapping (`lower`/`upper`/`capitalize`)
  is modelled at ASCII precision (`Char.toLower`/`Char.toUpper`), which is exact
  for all ASCII inputs used in the concrete theorems below.
- The LLM / MT network backends are oracles: functions returning
  `Except Unit String` (`.error` models a raised exception).
- Mutation is modelled by explicit state passing; Python's `copy.deepcopy`
  makes the embedded functions' purity exact.
- All definitions are structurally recursive (loops over strings use explicit
  fuel bounded by the string length) so concrete instances evaluate by kernel
  reduction.
-/

/-! ## Python-faithful string primitives -/

/-- Whitespace characters stripped by Python `str.strip()`. -/
def pyIsSpace (c : Char) : Bool :=
  c == ' ' || c == '\t' || c == '\n' || c == '\r' || c == '\x0b' || c == '\x0c'

/-- Python `str.strip()` on a character list. -/
def stripL (l : List Char) : List Char :=
  ((l.dropWhile pyIsSpace).reverse.dropWhile pyIsSpace).reverse

/-- Python `str.strip()`. -/
def pyStrip (s : String) : String := String.mk (stripL s.toList)

/-- Python `str.lower()` (ASCII precision). -/
def pyLower (s : String) : String := String.mk (s.toList.map Char.toLower)

/-- Python `str.upper()` (ASCII precision). -/
def pyUpper (s : String) : String := String.mk (s.toList.map Char.toUpper)

/-- Python `str.capitalize()`: first character upper-cased, rest lower-cased. -/
def pyCapitalize (s : String) : String :=
  match s.toList with
  | [] => ""
  | c :: cs => String.mk (c.toUpper :: cs.map Char.toLower)

/-- `startsWithL pat s` is true iff `pat` is a prefix of `s`. -/
def startsWithL : List Char → List Char → Bool
  | [], _ => true
  | _ :: _, [] => false
  | p :: ps, c :: cs => p == c && startsWithL ps cs

/-- `containsL s pat` is Python `pat in s` (substring test; `"" in s` is true). -/
def containsL : List Char → List Char → Bool
  | s, pat =>
    if startsWithL pat s then true
    else
      match s with
      | [] => false
      | _ :: cs => containsL cs pat

/-- Python `pat in s`. -/
def strIn (pat s : String) : Bool := containsL s.toList pat.toList

/-- Replace every (leftmost, non-overlapping) occurrence of the non-empty
pattern `pat` in `s`, with explicit fuel (`fuel ≥ s.length` suffices). -/
def replaceFuel (pat rep : List Char) : Nat → List Char → List Char
  | 0, s => s
  | _ + 1, [] => []
  | fuel + 1, c :: cs =>
    if startsWithL pat (c :: cs) then
      rep ++ replaceFuel pat rep fuel ((c :: cs).drop pat.length)
    else
      c :: replaceFuel pat rep fuel cs

/-- Python `s.replace(pat, rep)` (replace all occurrences; an empty pattern
inserts `rep` at every character boundary, as CPython does). -/
def pyReplace (s pat rep : String) : String :=
  match pat.toList with
  | [] => String.mk (rep.toList ++ s.toList.flatMap (fun c => c :: rep.toList))
  | p :: ps => String.mk (replaceFuel (p :: ps) rep.toList s.toList.length s.toList)

/-- Case-insensitive prefix test (ASCII precision). -/
def ciStartsWith (pat s : List Char) : Bool :=
  startsWithL (pat.map Char.toLower) (s.map Char.toLower)

/-- Case-insensitive replace-all with fuel, mirroring
`re.sub(re.escape(pat), rep, s, flags=re.IGNORECASE)` for a literal `rep`. -/
def ciReplaceFuel (pat rep : List Char) : Nat → List Char → List Char
  | 0, s => s
  | _ + 1, [] => []
  | fuel + 1, c :: cs =>
    if ciStartsWith pat (c :: cs) then
      rep ++ ciReplaceFuel pat rep fuel ((c :: cs).drop pat.length)
    else
      c :: ciReplaceFuel pat rep fuel cs

/-- `re.sub(re.escape(pat), rep, s, flags=re.IGNORECASE)` for a literal
replacement string (an empty pattern inserts `rep` at every boundary). -/
def ciReplace (s pat rep : String) : String :=
  match pat.toList with
  | [] => String.mk (rep.toList ++ s.toList.flatMap (fun c => c :: rep.toList))
  | p :: ps => String.mk (ciReplaceFuel (p :: ps) rep.toList s.toList.length s.toList)

/-- `re.search(re.escape(pat), s, re.IGNORECASE)` truthiness: case-insensitive
substring test (an empty pattern always matches). -/
def ciContains (s pat : String) : Bool :=
  containsL (s.toList.map Char.toLower) (pat.toList.map Char.toLower)

/-- Digit run with CPython underscore rules: `digit (('_')? digit)*`.
`digitsTail` accepts the part after the first digit. -/
def digitsTail : List Char → Bool
  | [] => true
  | '_' :: c :: cs => c.isDigit && digitsTail cs
  | '_' :: [] => false
  | c :: cs => c.isDigit && digitsTail cs

/-- Non-empty digit run with underscores allowed only between digits. -/
def digitsU : List Char → Bool
  | [] => false
  | c :: cs => c.isDigit && digitsTail cs

/-- Split a character list at the first character satisfying `p`; the second
component is `none` if no such character exists. -/
def splitAtFirst (p : Char → Bool) : List Char → List Char × Option (List Char)
  | [] => ([], none)
  | c :: cs =>
    if p c then ([], some cs)
    else
      let r := splitAtFirst p cs
      (c :: r.1, r.2)

/-- Mantissa check for CPython `float()`: digits, or a decimal point with
digits on at least one side. -/
def floatMantissa (l : List Char) : Bool :=
  match splitAtFirst (fun c => c == '.') l with
  | (ip, none) => digitsU ip
  | (ip, some fp) =>
    (ip.isEmpty || digitsU ip) && (fp.isEmpty || digitsU fp) &&
      !(ip.isEmpty && fp.isEmpty)

/-- Exponent-free or exponent-carrying numeric body for CPython `float()`. -/
def floatNumeric (l : List Char) : Bool :=
  match splitAtFirst (fun c => c == 'e' || c == 'E') l with
  | (m, none) => floatMantissa m
  | (m, some e) =>
    floatMantissa m &&
      (match e with
       | '+' :: d => digitsU d
       | '-' :: d => digitsU d
       | d => digitsU d)

/-- `isPyFloat s` is true iff CPython `float(s)` succeeds: optional surrounding
whitespace, optional sign, then a numeric literal or `inf`/`infinity`/`nan`
(case-insensitive). This embeds the `try: float(...)` numeric-skip heuristic
of `XLSXProcessor`. -/
def isPyFloat (s : String) : Bool :=
  let t := stripL s.toList
  let body :=
    match t with
    | '+' :: r => r
    | '-' :: r => r
    | r => r
  let low := body.map Char.toLower
  low == "inf".toList || low == "infinity".toList || low == "nan".toList ||
    floatNumeric body

/-- Split a character list on a separator character, Python
`str.split(sep)` style (empty pieces are kept; splitting `[]` gives `[[]]`). -/
def splitOnCharL (sep : Char) : List Char → List (List Char)
  | [] => [[]]
  | c :: cs =>
    let r := splitOnCharL sep cs
    if c == sep then [] :: r
    else
      match r with
      | [] => [[c]]
      | h :: t => (c :: h) :: t

/-- Python `s.split("\n")`. -/
def splitLines (s : String) : List String :=
  (splitOnCharL '\n' s.toList).map String.mk

/-- Python `"\n".join(l)`-style joining with a separator. -/
def joinWith (sep : String) : List String → String
  | [] => ""
  | [x] => x
  | x :: y :: xs => x ++ sep ++ joinWith sep (y :: xs)

/-- Stable insertion (descending length) used by `sortDescLen`. -/
def insertDescLen (x : String) : List String → List String
  | [] => [x]
  | y :: ys => if y.length ≤ x.length then x :: y :: ys else y :: insertDescLen x ys

/-- Python `sorted(keys, key=len, reverse=True)`: stable sort by descending
string length. -/
def sortDescLen : List String → List String
  | [] => []
  | x :: xs => insertDescLen x (sortDescLen xs)

/-- Dictionary lookup (`glossary[term]`); glossary keys are unique as in a
Python dict, so first-match lookup is exact. -/
def dlookup (d : List (String × String)) (k : String) : String :=
  match d.find? (fun kv => kv.1 == k) with
  | some kv => kv.2
  | none => ""

/-- Python `dict` assignment `d[k] = v`: overwrite in place if present,
append otherwise. -/
def dictSet (d : List (String × String)) (k v : String) : List (String × String) :=
  if d.any (fun kv => kv.1 == k) then
    d.map (fun kv => if kv.1 == k then (k, v) else kv)
  else d ++ [(k, v)]

/-- Python `d.update(e)` (applied to a fresh copy of `d`). -/
def dictUpdate (d e : List (String × String)) : List (String × String) :=
  e.foldl (fun acc kv => dictSet acc kv.1 kv.2) d

/-- Chunking with fuel; `listChunks` below instantiates `fuel := l.length`,
which suffices whenever `0 < n`. -/
def chunksFuel (n : Nat) : Nat → List α → List (List α)
  | 0, _ => []
  | _ + 1, [] => []
  | fuel + 1, x :: xs => (x :: xs.take (n - 1)) :: chunksFuel n fuel (xs.drop (n - 1))

/-- `range(0, len(l), n)` batching of `l` into chunks of size `n` (`n > 0`). -/
def listChunks (n : Nat) (l : List α) : List (List α) := chunksFuel n l.length l

/-! ## Glossary codec (`OpenAITranslator._preprocess_with_glossary` /
`_postprocess_with_glossary` / `_apply_custom_dictionary`) -/

/-- The `{"original_term": ..., "target_term": ...}` record stored per marker. -/
structure MarkerInfo where
  originalTerm : String
  targetTerm : String
deriving DecidableEq

/-- One iteration of the `for i, term in enumerate(sorted_terms)` loop of
`_preprocess_with_glossary`: the whole body is guarded by
`if term in preprocessed_text`, and the lower/upper/capitalized variants are
each guarded by their own presence test. -/
def glossaryTermStep (i : Nat) (term tgt : String)
    (st : String × List (String × MarkerInfo)) : String × List (String × MarkerInfo) :=
  let text := st.1
  let markers := st.2
  if strIn term text then
    let marker := "__GLOSSARY_TERM_" ++ toString i ++ "__"
    let markers := markers ++ [(marker, ⟨term, tgt⟩)]
    let text := pyReplace text term marker
    let st1 :=
      if strIn (pyLower term) (pyLower text) then
        let ml := "__GLOSSARY_TERM_" ++ toString i ++ "_LOWER__"
        (ciReplace text (pyLower term) ml, markers ++ [(ml, ⟨pyLower term, pyLower tgt⟩)])
      else (text, markers)
    let st2 :=
      if strIn (pyUpper term) st1.1 then
        let mu := "__GLOSSARY_TERM_" ++ toString i ++ "_UPPER__"
        (pyReplace st1.1 (pyUpper term) mu, st1.2 ++ [(mu, ⟨pyUpper term, pyUpper tgt⟩)])
      else st1
    let st3 :=
      if strIn (pyCapitalize term) st2.1 then
        let mc := "__GLOSSARY_TERM_" ++ toString i ++ "_CAP__"
        (pyReplace st2.1 (pyCapitalize term) mc, st2.2 ++ [(mc, ⟨pyCapitalize term, pyCapitalize tgt⟩)])
      else st2
    st3
  else st

/-- `OpenAITranslator._preprocess_with_glossary(text, glossary)`:
returns `(preprocessed_text, glossary_markers)`. Terms are processed in
descending-length (stable) order of the glossary keys. -/
def preprocessWithGlossary (text : String) (glossary : List (String × String)) :
    String × List (String × MarkerInfo) :=
  let sorted := sortDescLen (glossary.map (fun kv => kv.1))
  sorted.enum.foldl
    (fun st p => glossaryTermStep p.1 p.2 (dlookup glossary p.2) st)
    (text, [])

/-- `OpenAITranslator._apply_custom_dictionary(text, custom_dict)`. -/
def applyCustomDictionary (text : String) (d : List (String × String)) : String :=
  if d.isEmpty then text
  else
    d.foldl
      (fun acc kv =>
        let acc := pyReplace acc kv.1 kv.2
        let acc := pyReplace acc (pyLower kv.1) (pyLower kv.2)
        let acc := pyReplace acc (pyUpper kv.1) (pyUpper kv.2)
        pyReplace acc (pyCapitalize kv.1) (pyCapitalize kv.2))
      text

/-- `OpenAITranslator._postprocess_with_glossary(translated, markers, glossary)`:
replace surviving markers by their recorded targets, then one corrective
direct-dictionary pass. -/
def postprocessWithGlossary (translated : String)
    (markers : List (String × MarkerInfo)) (glossary : List (String × String)) : String :=
  let r := markers.foldl
    (fun acc m => if strIn m.1 acc then pyReplace acc m.1 m.2.targetTerm else acc)
    translated
  applyCustomDictionary r glossary

/-! ## Translation protocol (`OpenAITranslator.translate_text` /
`translate_texts_with_context` / `_parse_numbered_response`)

The chat-completion backend is an oracle.  The system prompts built by
`_build_system_prompt` / `_build_batch_system_prompt` only feed the backend,
so they are absorbed into the oracle, which receives the caller context
(resp. the shared document context) and the user-message content verbatim;
`.error` models a raised exception. -/

/-- LLM backend oracle: `singleCall context userContent` models the
chat-completion call of `translate_text`, `batchCall documentContext
numberedInput` the one of `translate_texts_with_context`. -/
structure LLMOracle where
  singleCall : Option String → String → Except Unit String
  batchCall : String → String → Except Unit String

/-- `OpenAITranslator.translate_text(text, ..., context, custom_dict, glossary)`.
Empty/whitespace text returns unchanged without touching the backend; a
backend exception is re-raised (`.error`). -/
def translateTextE (orc : LLMOracle) (text : String) (context : Option String)
    (customDict glossary : List (String × String)) : Except Unit String :=
  if pyStrip text = "" then .ok text
  else
    let finalG := dictUpdate customDict glossary
    let pre := if finalG.isEmpty then (text, []) else preprocessWithGlossary text finalG
    match orc.singleCall context pre.1 with
    | .ok translated =>
      .ok (if finalG.isEmpty then translated else postprocessWithGlossary translated pre.2 finalG)
    | .error e => .error e

/-- `re.match(r"^\d+\.\s*(.*)$", line)` on an already-stripped line: a run of
digits, a dot, optional whitespace, then the captured rest. -/
def parseNumLine (line : String) : Option String :=
  let cs := line.toList
  let ds := cs.takeWhile Char.isDigit
  let rest := cs.dropWhile Char.isDigit
  if ds.isEmpty then none
  else
    match rest with
    | '.' :: r => some (String.mk (r.dropWhile (fun c => pyIsSpace c)))
    | _ => none

/-- One iteration of the line loop in `_parse_numbered_response`, over the
state `(translations, current_translation)`. -/
def parseStep (st : List String × String) (line : String) : List String × String :=
  let translations := st.1
  let current := st.2
  match parseNumLine (pyStrip line) with
  | some g =>
    if pyStrip current ≠ "" then (translations ++ [pyStrip current], g)
    else (translations, g)
  | none =>
    if current ≠ "" || pyStrip line ≠ "" then
      (translations, if current ≠ "" then current ++ "\n" ++ line else line)
    else (translations, current)

/-- Pad with `""` up to `n` items, then truncate to `n`
(the `while len < expected: append("")` / `[:expected]` tail of
`_parse_numbered_response`). -/
def padTake (l : List String) (n : Nat) : List String :=
  (l ++ List.replicate (n - l.length) "").take n

/-- `OpenAITranslator._parse_numbered_response(response, expected_count)`. -/
def parseNumberedResponse (resp : String) (expected : Nat) : List String :=
  let lines := splitLines (pyStrip resp)
  let st := lines.foldl parseStep ([], "")
  let translations := if pyStrip st.2 ≠ "" then st.1 ++ [pyStrip st.2] else st.1
  padTake translations expected

/-- The numbered user message `"1. t1\n2. t2\n..."` built for a batch. -/
def numberedInput (batch : List String) : String :=
  batch.enum.foldl (fun acc p => acc ++ toString (p.1 + 1) ++ ". " ++ p.2 ++ "\n") ""

/-- The `text_mapping` / `non_empty_texts` filtering loop of
`translate_texts_with_context`, with `i` the index of the first element:
returns the non-empty texts and their original indices, in order. -/
def splitNonEmpty : List String → Nat → List String × List Nat
  | [], _ => ([], [])
  | t :: ts, i =>
    let r := splitNonEmpty ts (i + 1)
    if pyStrip t ≠ "" then (t :: r.1, i :: r.2) else r

/-- The shared document context: caller context (when truthy) plus the
first 50 non-empty texts joined by newlines. -/
def documentContext (context : Option String) (nonEmpty : List String) : String :=
  let dc := joinWith "\n" (nonEmpty.take 50)
  match context with
  | some c => c ++ "\n\nDocument context:\n" ++ dc
  | none => dc

/-- The body of one iteration of the batch loop of
`translate_texts_with_context`: glossary-preprocess the batch, send the
numbered list to the backend, parse and postprocess; on any backend failure
fall back to `translate_text` per item, keeping the original text when the
individual call also fails.  Always returns `batch.length` strings. -/
def processBatch (orc : LLMOracle) (finalG customDict glossary : List (String × String))
    (context : Option String) (docContext : String) (batch : List String) : List String :=
  let pre := batch.map
    (fun t => if finalG.isEmpty then (t, ([] : List (String × MarkerInfo)))
              else preprocessWithGlossary t finalG)
  let numbered := numberedInput (pre.map (fun p => p.1))
  match orc.batchCall docContext (pyStrip numbered) with
  | .ok resp =>
    let parsed := parseNumberedResponse resp batch.length
    parsed.enum.map
      (fun p =>
        let markers := (pre.map (fun q => q.2)).getD p.1 []
        if p.1 < pre.length ∧ ¬ markers.isEmpty then
          postprocessWithGlossary p.2 markers finalG
        else p.2)
  | .error _ =>
    batch.map
      (fun t =>
        match translateTextE orc t context customDict glossary with
        | .ok r => r
        | .error _ => t)

/-- The concatenation `all_translated` of all per-batch results, in order. -/
def translatedSeq (orc : LLMOracle) (texts : List String) (context : Option String)
    (customDict glossary : List (String × String)) (bs : Nat) : List String :=
  let ne := (splitNonEmpty texts 0).1
  let finalG := dictUpdate customDict glossary
  let dc := documentContext context ne
  (listChunks bs ne).flatMap (processBatch orc finalG customDict glossary context dc)

/-- The reconstruction loop
`for i, translated in enumerate(all_translated): result[text_mapping.get(i, i)] = ...`
(with the `original_index < len(result)` guard). -/
def placeGo : List String → List Nat → List String → Nat → List String
  | res, _, [], _ => res
  | res, mp, t :: ts, i =>
    let orig := mp.getD i i
    placeGo (if orig < res.length then res.set orig t else res) mp ts (i + 1)

/-- The final loop filling empty inputs back verbatim at their positions. -/
def fillGo : List String → List String → Nat → List String
  | res, [], _ => res
  | res, t :: ts, i =>
    fillGo (if pyStrip t = "" then res.set i t else res) ts (i + 1)

/-- Python exceptions surfaced by `translate_texts_with_context` itself:
`range(0, n, 0)` raises `ValueError`. -/
inductive PyError
  | valueError
deriving DecidableEq

/-- `OpenAITranslator.translate_texts_with_context(texts, ..., batch_size)`.
Empty input and all-empty input return early; a zero batch size raises
`ValueError` from `range(0, len(non_empty_texts), 0)` before any batch is
processed. -/
def translateTextsWithContext (orc : LLMOracle) (texts : List String)
    (context : Option String) (customDict glossary : List (String × String))
    (bs : Nat) : Except PyError (List String) :=
  if texts.isEmpty then .ok []
  else
    let ne := (splitNonEmpty texts 0).1
    let mp := (splitNonEmpty texts 0).2
    if ne.isEmpty then .ok texts
    else if bs = 0 then .error .valueError
    else
      let allT := translatedSeq orc texts context customDict glossary bs
      .ok (fillGo (placeGo (List.replicate texts.length "") mp allT 0) texts 0)

/-! ## XLSX content model (`XLSXProcessor`)

`extract_text` stores every non-empty cell as
`{"row", "column", "coordinate", "text", "original_text", "data_type", "font"}`;
only `coordinate` and `text` are consulted by the flattening and reapplication
methods (the remaining metadata is carried through `copy.deepcopy` unchanged),
so the embedded cell record keeps `row`, `column`, `coordinate` and `text`. -/

structure XCell where
  row : Nat
  column : Nat
  coordinate : String
  text : String
deriving DecidableEq

structure XSheet where
  sheetName : String
  cells : List XCell
deriving DecidableEq

structure XContent where
  worksheets : List XSheet
deriving DecidableEq

namespace XLSX

/-- The translatability test of `get_translatable_texts` /
`apply_translations`: a (string) cell text is translated iff it is non-empty
after stripping and `float(text)` raises `ValueError`. -/
def translatable (t : String) : Bool := (pyStrip t != "") && !(isPyFloat t)

/-- Texts of the translatable cells of one cell list, in order. -/
def cellTexts (cells : List XCell) : List String :=
  cells.filterMap (fun c => if translatable c.text then some c.text else none)

/-- `XLSXProcessor.get_translatable_texts(extracted_content)`. -/
def getTranslatableTexts (c : XContent) : List String :=
  c.worksheets.flatMap (fun ws => cellTexts ws.cells)

/-- Coordinates of the translatable cells of one cell list, in order. -/
def cellCoords (cells : List XCell) : List String :=
  cells.filterMap (fun c => if translatable c.text then some c.coordinate else none)

/-- Coordinates of the flattened (translatable) cells, in traversal order. -/
def coords (c : XContent) : List String :=
  c.worksheets.flatMap (fun ws => cellCoords ws.cells)

/-- The inner cell loop of `apply_translations`, threading `translation_idx`:
a translatable cell receives `translations[idx]` when `idx < len(translations)`
(incrementing `idx`), otherwise it is left unchanged. -/
def applyCells : List XCell → List String → Nat → List XCell × Nat
  | [], _, i => ([], i)
  | cell :: cs, trs, i =>
    if translatable cell.text then
      if i < trs.length then
        let r := applyCells cs trs (i + 1)
        ({ cell with text := trs.getD i "" } :: r.1, r.2)
      else
        let r := applyCells cs trs i
        (cell :: r.1, r.2)
    else
      let r := applyCells cs trs i
      (cell :: r.1, r.2)

/-- The worksheet loop of `apply_translations`. -/
def applySheets : List XSheet → List String → Nat → List XSheet × Nat
  | [], _, i => ([], i)
  | ws :: wss, trs, i =>
    let rc := applyCells ws.cells trs i
    let rr := applySheets wss trs rc.2
    ({ ws with cells := rc.1 } :: rr.1, rr.2)

/-- `XLSXProcessor.apply_translations(extracted_content, translations)`
(operating on a deep copy, hence pure). -/
def applyTranslations (c : XContent) (trs : List String) : XContent :=
  { worksheets := (applySheets c.worksheets trs 0).1 }

end XLSX

/-! ## PPTX content model (`PPTXProcessor`)

A shape record is
`{"shape_index", "shape_type", "shape_id", "text_content", "has_text_frame",
  "text_frames", "table_data"?}`;  `text_content` is `None` or a string,
`table_data` is only sometimes present (`shape_data.get("table_data")`), so it
is an `Option`.  Branch truthiness follows Python: a list is truthy iff
non-empty, `None` and `""` are falsy. -/

structure PFrame where
  paragraphIndex : Nat
  text : String
  originalText : String
deriving DecidableEq

structure PCell where
  cellIndex : Nat
  text : String
  originalText : String
deriving DecidableEq

structure PRow where
  rowIndex : Nat
  cells : List PCell
deriving DecidableEq

structure PShape where
  shapeIndex : Nat
  shapeType : String
  textContent : Option String
  hasTextFrame : Bool
  textFrames : List PFrame
  tableData : Option (List PRow)
deriving DecidableEq

structure PSlide where
  slideNumber : Nat
  shapes : List PShape
deriving DecidableEq

structure PContent where
  slides : List PSlide
deriving DecidableEq

/-- Python truthiness of `shape_data["text_content"]` (`None`/`""` falsy). -/
def optStrTruthy : Option String → Bool
  | some s => s ≠ ""
  | none => false

/-- Python truthiness of `shape_data.get("table_data")` (absent or `[]` falsy). -/
def tableTruthy : Option (List PRow) → Bool
  | some l => ¬ l.isEmpty
  | none => false

namespace PPTX

/-- Frame texts collected by the `text_frames` branch (non-empty after strip). -/
def frameTexts (frames : List PFrame) : List String :=
  frames.filterMap (fun f => if pyStrip f.text ≠ "" then some f.text else none)

/-- Texts of one table-row's cells collected by the `table_data` branch
(non-empty after strip). -/
def tcellTexts (cs : List PCell) : List String :=
  cs.filterMap (fun c => if pyStrip c.text ≠ "" then some c.text else none)

/-- Cell texts collected by the `table_data` branch (non-empty after strip). -/
def tableTexts (rows : List PRow) : List String :=
  rows.flatMap (fun r => tcellTexts r.cells)

/-- Per-shape flattening: the `if text_frames / elif text_content /
elif table_data` chain of `get_translatable_texts` (note: the `text_content`
branch has no strip test). -/
def shapeTexts (sh : PShape) : List String :=
  if ¬ sh.textFrames.isEmpty then frameTexts sh.textFrames
  else if optStrTruthy sh.textContent then [sh.textContent.getD ""]
  else if tableTruthy sh.tableData then tableTexts (sh.tableData.getD [])
  else []

/-- `PPTXProcessor.get_translatable_texts(extracted_content)`. -/
def getTranslatableTexts (c : PContent) : List String :=
  c.slides.flatMap (fun sl => sl.shapes.flatMap shapeTexts)

/-- The frame loop of `apply_translations`, threading `translation_idx`. -/
def applyFrames : List PFrame → List String → Nat → List PFrame × Nat
  | [], _, i => ([], i)
  | f :: fs, trs, i =>
    if pyStrip f.text ≠ "" ∧ i < trs.length then
      let r := applyFrames fs trs (i + 1)
      ({ f with text := trs.getD i "" } :: r.1, r.2)
    else
      let r := applyFrames fs trs i
      (f :: r.1, r.2)

/-- The table-cell loop of `apply_translations`. -/
def applyTCells : List PCell → List String → Nat → List PCell × Nat
  | [], _, i => ([], i)
  | c :: cs, trs, i =>
    if pyStrip c.text ≠ "" ∧ i < trs.length then
      let r := applyTCells cs trs (i + 1)
      ({ c with text := trs.getD i "" } :: r.1, r.2)
    else
      let r := applyTCells cs trs i
      (c :: r.1, r.2)

/-- The table-row loop of `apply_translations`. -/
def applyRows : List PRow → List String → Nat → List PRow × Nat
  | [], _, i => ([], i)
  | r :: rs, trs, i =>
    let rc := applyTCells r.cells trs i
    let rr := applyRows rs trs rc.2
    ({ r with cells := rc.1 } :: rr.1, rr.2)

/-- Per-shape reapplication: the
`if text_frames / elif text_content and idx < len / elif table_data` chain of
`apply_translations` (the `text_content` branch additionally requires a
remaining translation, exactly as in the Python `elif`). -/
def applyShape (sh : PShape) (trs : List String) (i : Nat) : PShape × Nat :=
  if ¬ sh.textFrames.isEmpty then
    let r := applyFrames sh.textFrames trs i
    ({ sh with textFrames := r.1 }, r.2)
  else if optStrTruthy sh.textContent ∧ i < trs.length then
    ({ sh with textContent := some (trs.getD i "") }, i + 1)
  else if tableTruthy sh.tableData then
    let r := applyRows (sh.tableData.getD []) trs i
    ({ sh with tableData := some r.1 }, r.2)
  else (sh, i)

/-- The shape loop of `apply_translations`. -/
def applyShapes : List PShape → List String → Nat → List PShape × Nat
  | [], _, i => ([], i)
  | sh :: shs, trs, i =>
    let r := applyShape sh trs i
    let rr := applyShapes shs trs r.2
    (r.1 :: rr.1, rr.2)

/-- The slide loop of `apply_translations`. -/
def applySlides : List PSlide → List String → Nat → List PSlide × Nat
  | [], _, i => ([], i)
  | sl :: sls, trs, i =>
    let r := applyShapes sl.shapes trs i
    let rr := applySlides sls trs r.2
    ({ sl with shapes := r.1 } :: rr.1, rr.2)

/-- `PPTXProcessor.apply_translations(extracted_content, translations)`
(operating on a deep copy, hence pure: the input tree is untouched). -/
def applyTranslations (c : PContent) (trs : List String) : PContent :=
  { slides := (applySlides c.slides trs 0).1 }

end PPTX

/-! ## PPTX replace tool and agent step (`PPTXReplaceTool.execute`,
`ReactTranslationAgent.process_message`)

The tool works over the session's translated content; a text frame is a dict
that may or may not carry the key `'text'` (`if text_key in text_frame`),
modelled as an `Option String` field. -/

structure TFrame where
  frameText : Option String
deriving DecidableEq

structure TShape where
  textFrames : List TFrame
deriving DecidableEq

structure TSlide where
  shapes : List TShape
deriving DecidableEq

structure TContent where
  slides : List TSlide
deriving DecidableEq

/-- Result shape of `PPTXReplaceTool.execute`:
`{"success", "count", "updated_content", ...}` (the `replacements` list and
`message` are summarized by `count`). -/
structure ReplaceResult where
  success : Bool
  count : Nat
  updatedContent : Option TContent
deriving DecidableEq

/-- One frame of the replace loop: if the frame has a `'text'` key and
`re.search(re.escape(old), text, re.IGNORECASE)` matches, replace all
occurrences case-insensitively and record one replacement. -/
def frameReplace (old new : String) (f : TFrame) : TFrame × Nat :=
  match f.frameText with
  | some t =>
    if ciContains t old then (⟨some (ciReplace t old new)⟩, 1) else (f, 0)
  | none => (f, 0)

/-- Replace within one slide, counting replacement records. -/
def slideReplace (old new : String) (sl : TSlide) : TSlide × Nat :=
  let rs := sl.shapes.map (fun sh =>
    let fr := sh.textFrames.map (frameReplace old new)
    (TShape.mk (fr.map (fun p => p.1)), (fr.map (fun p => p.2)).foldl (· + ·) 0))
  (⟨rs.map (fun p => p.1)⟩, (rs.map (fun p => p.2)).foldl (· + ·) 0)

/-- `PPTXReplaceTool.execute(old_text, new_text, slide_idx)`: processes the
selected slide (skipping an out-of-range index, as `continue` does) or all
slides, returning `success=True`, the number of replacement records, and the
updated content. -/
def executeReplace (c : TContent) (old new : String) (slideIdx : Option Nat) :
    ReplaceResult :=
  match slideIdx with
  | some i =>
    if i < c.slides.length then
      let r := slideReplace old new (c.slides.getD i ⟨[]⟩)
      { success := true, count := r.2,
        updatedContent := some ⟨c.slides.set i r.1⟩ }
    else
      { success := true, count := 0, updatedContent := some c }
  | none =>
    let rs := c.slides.map (slideReplace old new)
    { success := true, count := (rs.map (fun p => p.2)).foldl (· + ·) 0,
      updatedContent := some ⟨rs.map (fun p => p.1)⟩ }

/-- A planned step of `ReactTranslationAgent.process_message`: either the
PPTX replace tool or some other (skipped) tool name. -/
inductive PlanStep
  | replaceTool (old new : String) (slideIdx : Option Nat)
  | otherTool (name : String)

/-- The plan-execution loop of `process_message` for a `.pptx` session:
each allowed step runs its tool; when the result has `success=True` and an
`updated_content` key, the session's translated content is replaced and
`content_updated` is set.  Unknown tools are skipped.  Returns
`(translated_content, content_updated)`. -/
def agentExecutePlan (c : TContent) : List PlanStep → TContent × Bool
  | [] => (c, false)
  | PlanStep.replaceTool old new si :: rest =>
    let r := executeReplace c old new si
    let c' := if r.success ∧ r.updatedContent.isSome then r.updatedContent.getD c else c
    let rr := agentExecutePlan c' rest
    (rr.1, (r.success ∧ r.updatedContent.isSome) ∨ rr.2)
  | PlanStep.otherTool _ :: rest => agentExecutePlan c rest

/-- Specification-side count: frames (with a `'text'` key) whose text contains
`old` case-insensitively, over the whole deck. -/
def countMatchedFrames (old : String) (c : TContent) : Nat :=
  (c.slides.flatMap (fun sl => sl.shapes.flatMap (fun sh => sh.textFrames))).countP
    (fun f => match f.frameText with
      | some t => ciContains t old
      | none => false)

/-- Specification-side content update: every matching frame case-insensitively
replaced, structure untouched. -/
def ciReplaceContent (old new : String) (c : TContent) : TContent :=
  ⟨c.slides.map (fun sl => ⟨sl.shapes.map (fun sh =>
    ⟨sh.textFrames.map (fun f => (frameReplace old new f).1)⟩)⟩)⟩

/-! ## Session store (`SessionService`)

`active_sessions` plus the JSON files form one id-keyed map, modelled as an
association list; timestamps are abstract `Nat` ticks supplied by the caller
(`datetime.now()`).  `original_content`/`translated_content` are opaque
payloads, modelled as strings. -/

structure SessionRec where
  sessionId : String
  fileName : String
  translatedContent : String
  chatHistory : List (String × String)
  isFinalized : Bool
  updatedAt : Nat
deriving DecidableEq

def SessionStore := List (String × SessionRec)

/-- `SessionService.get_session(session_id)`. -/
def getSession (st : SessionStore) (sid : String) : Option SessionRec :=
  (st.find? (fun p => p.1 == sid)).map (fun p => p.2)

/-- Overwrite the record stored under an existing id. -/
def setSession (st : SessionStore) (sid : String) (s : SessionRec) : SessionStore :=
  st.map (fun p => if p.1 == sid then (sid, s) else p)

/-- `SessionService.finalize_session(session_id)`: sets `is_finalized=True`,
bumps `updated_at` and saves; `False` when the session is absent. -/
def finalizeSession (st : SessionStore) (sid : String) (now : Nat) :
    SessionStore × Bool :=
  match getSession st sid with
  | none => (st, false)
  | some s => (setSession st sid { s with isFinalized := true, updatedAt := now }, true)

/-- `SessionService.update_session_content(session_id, translated_content)`:
overwrites the translated content unconditionally (no finalized check). -/
def updateSessionContent (st : SessionStore) (sid : String) (content : String)
    (now : Nat) : SessionStore × Bool :=
  match getSession st sid with
  | none => (st, false)
  | some s =>
    (setSession st sid { s with translatedContent := content, updatedAt := now }, true)

/-- `SessionService.update_session(session_id, updated_session)`: replaces the
whole record when the id exists (no finalized check). -/
def updateSession (st : SessionStore) (sid : String) (s' : SessionRec) (now : Nat) :
    SessionStore × Bool :=
  match getSession st sid with
  | none => (st, false)
  | some _ => (setSession st sid { s' with updatedAt := now }, true)

/-- `SessionService.add_chat_message(session_id, user_message, bot_response)`:
appends a user and an assistant entry (no finalized check). -/
def addChatMessage (st : SessionStore) (sid : String) (userMsg botMsg : String)
    (now : Nat) : SessionStore × Bool :=
  match getSession st sid with
  | none => (st, false)
  | some s =>
    (setSession st sid
      { s with chatHistory := s.chatHistory ++ [("user", userMsg), ("assistant", botMsg)],
               updatedAt := now }, true)

/-! ## TXT processing and session creation
(`BaseDocumentProcessor`, `TXTProcessor`,
`EnhancedTranslationService.create_translation_session`) -/

/-- The extracted content of a `.txt` file: `{"text": f.read(),
"lines": f.readlines()}` — `readlines()` runs after `read()` exhausted the
file handle, so `lines` is always `[]`. -/
structure TxtContent where
  text : String
  lines : List String
deriving DecidableEq

/-- `TXTProcessor.extract_text` as a function of the file's contents. -/
def txtExtractText (raw : String) : TxtContent := { text := raw, lines := [] }

/-- `BaseDocumentProcessor.get_translatable_texts` default: the empty list. -/
def baseGetTranslatableTexts (_ : TxtContent) : List String := []

/-- `TXTProcessor` does not override `get_translatable_texts`, so the base
default applies. -/
def txtGetTranslatableTexts : TxtContent → List String := baseGetTranslatableTexts

/-- Outcome of `EnhancedTranslationService.create_translation_session`
(success flag, error, session id). -/
structure ServiceResult where
  success : Bool
  error : Option String
  sessionId : Option String
deriving DecidableEq

/-- `create_translation_session` on a `.txt` file, as a function of the file
contents: `.txt` is a supported extension, extraction succeeds, and the
`if not translatable_texts: raise ValueError(...)` check fires; the exception
is caught and returned as `{"success": False, "error": str(e)}`. -/
def createTranslationSessionTxt (raw : String) : ServiceResult :=
  let content := txtExtractText raw
  let texts := txtGetTranslatableTexts content
  if texts.isEmpty then
    { success := false, error := some "No translatable text found in document",
      sessionId := none }
  else
    { success := true, error := none, sessionId := some "session" }

/-! ## Translation engine cache (`TranslationEngine.translate_text`)

The three translator backends are oracles; `openai` reuses the embedded
`translate_text` of `OpenAITranslator` (the engine passes `glossary=custom_dict`
and the caller context).  `azure`/`google` take `(text, target_lang,
source_lang)`. -/

structure EngineConfig where
  openai : Option LLMOracle
  azure : Option (String → String → Option String → Except Unit String)
  google : String → String → Option String → Except Unit String

structure TranslationEngineState where
  cache : List (String × String)
deriving DecidableEq

/-- `cache_key = f"{text}_{target_lang}_{source_lang or 'auto'}"` — the key
ignores `custom_dict` and `context`. -/
def cacheKey (text targetLang : String) (sourceLang : Option String) : String :=
  text ++ "_" ++ targetLang ++ "_" ++ sourceLang.getD "auto"

/-- The `try:` body of `TranslationEngine.translate_text`: OpenAI if
configured, else Azure, else Google. -/
def engineAttempt (cfg : EngineConfig) (text targetLang : String)
    (sourceLang : Option String) (customDict : List (String × String))
    (context : Option String) : Except Unit String :=
  match cfg.openai with
  | some orc => translateTextE orc text context [] customDict
  | none =>
    match cfg.azure with
    | some az => az text targetLang sourceLang
    | none => cfg.google text targetLang sourceLang

/-- `TranslationEngine.translate_text`: cache hit returns the stored result
without consulting any translator (third component `false`); on a miss the
attempt result is cached, and an exception falls back to Google without
caching. -/
def engineTranslateText (cfg : EngineConfig) (st : TranslationEngineState)
    (text targetLang : String) (sourceLang : Option String)
    (customDict : List (String × String)) (context : Option String) :
    Except Unit String × TranslationEngineState × Bool :=
  let key := cacheKey text targetLang sourceLang
  match st.cache.find? (fun p => p.1 == key) with
  | some kv => (.ok kv.2, st, false)
  | none =>
    match engineAttempt cfg text targetLang sourceLang customDict context with
    | .ok translated => (.ok translated, ⟨st.cache ++ [(key, translated)]⟩, true)
    | .error _ => (cfg.google text targetLang sourceLang, st, true)

/-! ## Concrete instances used by the scenario theorems -/

/-- An identity chat backend: returns the user content verbatim. -/
def idOrc : LLMOracle := ⟨fun _ s => .ok s, fun _ s => .ok s⟩

/-- A backend that fails on every batched call but translates single calls by
appending `"!"`. -/
def failBatchOrc : LLMOracle := ⟨fun _ s => .ok (s ++ "!"), fun _ _ => .error ()⟩

/-- A one-sheet workbook with a single translatable text cell. -/
def xlsxDoc1 : XContent := ⟨[⟨"Sheet1", [⟨1, 1, "A1", "hi"⟩]⟩]⟩

/-- A two-slide deck in which the term `AI` occurs in exactly one frame of
each slide (once lower-case, to exercise case-insensitive matching). -/
def tcAI : TContent :=
  ⟨[⟨[⟨[⟨some "AI is powerful"⟩]⟩]⟩, ⟨[⟨[⟨some "Ung dung ai"⟩]⟩]⟩]⟩

/-- `tcAI` after replacing `AI` with `trí tuệ nhân tạo` in both frames. -/
def tcAIExpected : TContent :=
  ⟨[⟨[⟨[⟨some "trí tuệ nhân tạo is powerful"⟩]⟩]⟩,
    ⟨[⟨[⟨some "Ung dung trí tuệ nhân tạo"⟩]⟩]⟩]⟩

/-- A store holding one not-yet-finalized session. -/
def sessionRec0 : SessionRec := ⟨"s1", "deck.pptx", "OLD", [], false, 0⟩

def store0 : SessionStore := [("s1", sessionRec0)]

/-- An engine whose OpenAI backend prepends `"T"`; the batched entry point is
unused by the engine. -/
def engineCfg1 : EngineConfig :=
  ⟨some ⟨fun _ s => .ok ("T" ++ s), fun _ _ => .error ()⟩, none,
   fun _ _ _ => .ok "g"⟩

/-! ## General list helper lemmas -/

theorem lGetD_irrel (l : List α) (i : Nat) (d1 d2 : α) (h : i < l.length) :
    l.getD i d1 = l.getD i d2 := by
  induction l generalizing i with
  | nil => simp at h
  | cons x xs ih =>
    cases i with
    | zero => rfl
    | succ n => simpa [List.getD] using ih n (by simpa using h)

theorem lGetD_mem (l : List α) (i : Nat) (d : α) (h : i < l.length) :
    l.getD i d ∈ l := by
  induction l generalizing i with
  | nil => simp at h
  | cons x xs ih =>
    cases i with
    | zero => simp [List.getD]
    | succ n =>
      simp only [List.getD_cons_succ]
      exact List.mem_cons_of_mem _ (ih n (by simpa using h))

theorem lDrop_cons_getD (l : List α) (i : Nat) (a : α) (r : List α) (d : α)
    (h : l.drop i = a :: r) :
    l.getD i d = a ∧ i < l.length ∧ l.drop (i + 1) = r := by
  induction i generalizing l with
  | zero =>
    simp only [List.drop_zero] at h
    subst h
    simp
  | succ n ih =>
    cases l with
    | nil => simp at h
    | cons x xs =>
      simp only [List.drop_succ_cons] at h
      obtain ⟨h1, h2, h3⟩ := ih xs h
      exact ⟨by simpa [List.getD] using h1, by simpa using h2,
        by simpa [List.drop_succ_cons] using h3⟩

theorem lDrop_eq_getD_cons (l : List α) (i : Nat) (d : α) (h : i < l.length) :
    l.drop i = l.getD i d :: l.drop (i + 1) := by
  induction l generalizing i with
  | nil => simp at h
  | cons x xs ih =>
    cases i with
    | zero => simp
    | succ n =>
      simp only [List.drop_succ_cons, List.getD_cons_succ]
      exact ih n (by simpa using h)

theorem lGetD_set_self (l : List α) (i : Nat) (x d : α) (h : i < l.length) :
    (l.set i x).getD i d = x := by
  induction l generalizing i with
  | nil => simp at h
  | cons y ys ih =>
    cases i with
    | zero => rfl
    | succ n => simpa [List.getD] using ih n (by simpa using h)

theorem lGetD_set_other (l : List α) (i j : Nat) (x d : α) (h : i ≠ j) :
    (l.set i x).getD j d = l.getD j d := by
  induction l generalizing i j with
  | nil => rfl
  | cons y ys ih =>
    cases i with
    | zero =>
      cases j with
      | zero => exact absurd rfl h
      | succ m => rfl
    | succ n =>
      cases j with
      | zero => rfl
      | succ m =>
        simpa [List.getD] using ih n m (fun hc => h (by simpa using hc))

theorem lPairwise_getD (mp : List Nat) (hp : List.Pairwise (· < ·) mp)
    (a b : Nat) (hab : a < b) (hb : b < mp.length) :
    mp.getD a 0 < mp.getD b 0 := by
  induction mp generalizing a b with
  | nil => simp at hb
  | cons x xs ih =>
    rcases List.pairwise_cons.mp hp with ⟨hx, hxs⟩
    cases a with
    | zero =>
      cases b with
      | zero => omega
      | succ m =>
        simp only [List.getD_cons_zero, List.getD_cons_succ]
        exact hx _ (lGetD_mem xs m 0 (by simpa using hb))
    | succ n =>
      cases b with
      | zero => omega
      | succ m =>
        simp only [List.getD_cons_succ]
        exact ih hxs n m (by omega) (by simpa using hb)

deriving instance DecidableEq for Except

/-! ## C9: TXT documents never yield translatable text -/

/-- C9: for every plain-text document, `get_translatable_texts` returns the
empty list (the TXT processor inherits the base-class default), so
`create_translation_session` on a `.txt` file always fails with
`"No translatable text found in document"`, regardless of the file's
contents. -/
theorem txt_always_no_translatable_text (raw : String) :
    txtGetTranslatableTexts (txtExtractText raw) = [] ∧
    createTranslationSessionTxt raw =
      { success := false, error := some "No translatable text found in document",
        sessionId := none } :=
  ⟨rfl, rfl⟩

/-! ## C5: glossary survival under an identity backend -/

/-- C5: with glossary `{"Hello": "Xin chào"}` and an identity backend,
translating `["Hello world", "Good morning"]` yields
`["Xin chào world", "Good morning"]`: the marker decode re-surfaces the
glossary target term even under an identity "translation". -/
theorem glossary_survival_scenario :
    translateTextsWithContext idOrc ["Hello world", "Good morning"] none []
      [("Hello", "Xin chào")] 10 = .ok ["Xin chào world", "Good morning"] := by
  decide

/-! ## C6: glossary encoding and case variants -/

/-- C6 counterexample: the text `"hello world"` contains the lowercase variant
of the glossary term `"Hello"`, yet encoding leaves the text unchanged and
records no marker — the case variants are only processed when the exact-cased
term occurs, refuting the claim that any present variant is replaced. -/
theorem glossary_case_variant_counterexample :
    strIn (pyLower "Hello") "hello world" = true ∧
    preprocessWithGlossary "hello world" [("Hello", "Xin chào")] =
      ("hello world", []) := by
  decide

theorem mem_insertDescLen (x y : String) (l : List String)
    (h : y ∈ insertDescLen x l) : y = x ∨ y ∈ l := by
  induction l with
  | nil => simpa [insertDescLen] using h
  | cons z zs ih =>
    by_cases hc : z.length ≤ x.length
    · simpa [insertDescLen, hc, List.mem_cons, or_assoc] using h
    · simp only [insertDescLen, hc, if_false, List.mem_cons] at h
      rcases h with h | h
      · exact Or.inr (by simp [h])
      · rcases ih h with h' | h'
        · exact Or.inl h'
        · exact Or.inr (List.mem_cons_of_mem _ h')

theorem mem_sortDescLen (y : String) (l : List String)
    (h : y ∈ sortDescLen l) : y ∈ l := by
  induction l with
  | nil => simp [sortDescLen] at h
  | cons x xs ih =>
    rcases mem_insertDescLen x y (sortDescLen xs) h with h' | h'
    · simp [h']
    · exact List.mem_cons_of_mem _ (ih h')

theorem glossaryTermStep_absent (i : Nat) (term tgt text : String)
    (markers : List (String × MarkerInfo)) (h : strIn term text = false) :
    glossaryTermStep i term tgt (text, markers) = (text, markers) := by
  simp [glossaryTermStep, h]

/-- C6 amended: a glossary term is only processed when its exact casing occurs
in the text; if no term of the glossary occurs verbatim, encoding returns the
text unchanged with an empty marker table, even when lowercase, uppercase, or
capitalized variants are present. -/
theorem glossary_encode_requires_exact_occurrence (text : String)
    (glossary : List (String × String))
    (h : ∀ t ∈ glossary.map (fun kv => kv.1), strIn t text = false) :
    preprocessWithGlossary text glossary = (text, []) := by
  unfold preprocessWithGlossary
  have hsorted : ∀ t ∈ sortDescLen (glossary.map (fun kv => kv.1)),
      strIn t text = false := fun t ht => h t (mem_sortDescLen t _ ht)
  generalize hl : sortDescLen (glossary.map (fun kv => kv.1)) = terms at hsorted ⊢
  have main : ∀ (ps : List (Nat × String)),
      (∀ p ∈ ps, strIn p.2 text = false) →
      ps.foldl (fun st p => glossaryTermStep p.1 p.2 (dlookup glossary p.2) st)
        (text, ([] : List (String × MarkerInfo))) = (text, []) := by
    intro ps hps
    induction ps with
    | nil => rfl
    | cons p pr ih =>
      simp only [List.foldl_cons]
      rw [glossaryTermStep_absent _ _ _ _ _ (hps p (List.mem_cons_self _ _))]
      exact ih (fun q hq => hps q (List.mem_cons_of_mem _ hq))
  refine main terms.enum ?_
  intro p hp
  apply hsorted
  have : p.2 ∈ terms.enum.map Prod.snd := List.mem_map_of_mem Prod.snd hp
  simpa [List.enum_map_snd] using this

/-- C6 amended, witness: no exact-cased glossary term occurs in
`"Good morning"`, and encoding indeed leaves it unchanged. -/
theorem glossary_encode_requires_exact_occurrence_witness :
    (∀ t ∈ ([("Hello", "Xin chào")].map (fun kv => kv.1) : List String),
      strIn t "Good morning" = false) ∧
    preprocessWithGlossary "Good morning" [("Hello", "Xin chào")] =
      ("Good morning", []) :=
  ⟨by decide,
   glossary_encode_requires_exact_occurrence "Good morning" [("Hello", "Xin chào")]
     (by decide)⟩

/-! ## C4: batch failure falls back to per-item translation -/

/-- C4: when the batched backend call throws, the result for that batch equals
translating every unit of the batch individually via `translate_text`, and a
unit whose individual translation also throws contributes its original text
unchanged (so the document is never aborted). -/
theorem batch_failure_falls_back_individually (orc : LLMOracle)
    (h : ∀ dc inp, orc.batchCall dc inp = .error ())
    (finalG customDict glossary : List (String × String)) (context : Option String)
    (docContext : String) (batch : List String) :
    processBatch orc finalG customDict glossary context docContext batch =
      batch.map (fun t =>
        match translateTextE orc t context customDict glossary with
        | .ok r => r
        | .error _ => t) ∧
    ∀ t : String, translateTextE orc t context customDict glossary = .error () →
      (match translateTextE orc t context customDict glossary with
       | .ok r => r
       | .error _ => t) = t := by
  constructor
  · simp only [processBatch, h]
  · intro t ht
    rw [ht]

/-- C4 witness: a backend failing on every batched call; the batch result is
the per-item translation, and the whitespace-only unit (whose individual call
returns it unchanged without reaching the backend) survives verbatim. -/
theorem batch_failure_falls_back_individually_witness :
    (∀ dc inp, failBatchOrc.batchCall dc inp = .error ()) ∧
    processBatch failBatchOrc [] [] [] none "" ["hi", " "] = ["hi!", " "] := by
  refine ⟨fun _ _ => rfl, ?_⟩
  rw [(batch_failure_falls_back_individually failBatchOrc (fun _ _ => rfl)
        [] [] [] none "" ["hi", " "]).1]
  decide

/-! ## C8: finalized sessions are not immutable -/

/-- C8 counterexample: after `finalize_session` sets `is_finalized=True`,
`update_session_content` on the same session still succeeds and changes its
translated tree — the record is not immutable. -/
theorem finalize_not_immutable_counterexample :
    ((getSession (finalizeSession store0 "s1" 1).1 "s1").map
        (fun s => s.isFinalized) = some true) ∧
    (updateSessionContent (finalizeSession store0 "s1" 1).1 "s1" "NEW" 2).2 = true ∧
    ((getSession
        (updateSessionContent (finalizeSession store0 "s1" 1).1 "s1" "NEW" 2).1
        "s1").map (fun s => s.translatedContent) = some "NEW") ∧
    ("NEW" : String) ≠ "OLD" := by
  decide

theorem getSession_setSession (st : SessionStore) (sid : String) (s : SessionRec)
    (hx : (getSession st sid).isSome) :
    getSession (setSession st sid s) sid = some s := by
  induction st with
  | nil => simp [getSession] at hx
  | cons p rest ih =>
    by_cases hk : p.1 == sid
    · have hpe : p.1 = sid := by simpa using hk
      have hset : setSession (p :: rest) sid s = (sid, s) :: setSession rest sid s := by
        simp [setSession, hpe]
      rw [getSession, hset, List.find?_cons_of_pos _ (by simp)]
      rfl
    · have hpe : ¬ p.1 = sid := by simpa using hk
      have hset : setSession (p :: rest) sid s = p :: setSession rest sid s := by
        simp [setSession, hpe]
      have hx' : (getSession rest sid).isSome := by
        rw [getSession, List.find?_cons_of_neg _ (by simpa using hk)] at hx
        exact hx
      rw [getSession, hset, List.find?_cons_of_neg _ (by simpa using hk)]
      exact ih hx'

/-- C8 amended: `finalize_session(id)` sets `is_finalized=True` (bumping
`updated_at`, preserving all other fields), but the record stays mutable:
`update_session_content` on the finalized session still returns `True` and
overwrites the translated tree, for every store, session, and new content. -/
theorem finalize_sets_flag_but_store_stays_mutable (st : SessionStore)
    (sid : String) (now : Nat) (s : SessionRec) (h : getSession st sid = some s) :
    getSession (finalizeSession st sid now).1 sid =
      some { s with isFinalized := true, updatedAt := now } ∧
    ∀ (content : String) (now2 : Nat),
      (updateSessionContent (finalizeSession st sid now).1 sid content now2).2 =
        true ∧
      (getSession
          (updateSessionContent (finalizeSession st sid now).1 sid content now2).1
          sid).map (fun r => r.translatedContent) = some content := by
  have hsome : (getSession st sid).isSome := by simp [h]
  have h1 : getSession (finalizeSession st sid now).1 sid =
      some { s with isFinalized := true, updatedAt := now } := by
    simp only [finalizeSession, h]
    exact getSession_setSession st sid _ hsome
  refine ⟨h1, fun content now2 => ?_⟩
  have hsome1 : (getSession (finalizeSession st sid now).1 sid).isSome := by
    simp [h1]
  constructor
  · simp only [updateSessionContent, h1]
  · simp only [updateSessionContent, h1]
    rw [getSession_setSession _ sid _ hsome1]
    rfl

/-- C8 amended, witness: the concrete one-session store. -/
theorem finalize_sets_flag_but_store_stays_mutable_witness :
    getSession store0 "s1" = some sessionRec0 ∧
    getSession (finalizeSession store0 "s1" 5).1 "s1" =
      some { sessionRec0 with isFinalized := true, updatedAt := 5 } ∧
    (updateSessionContent (finalizeSession store0 "s1" 5).1 "s1" "NEW2" 6).2 =
      true ∧
    (getSession
        (updateSessionContent (finalizeSession store0 "s1" 5).1 "s1" "NEW2" 6).1
        "s1").map (fun r => r.translatedContent) = some "NEW2" := by
  have h := finalize_sets_flag_but_store_stays_mutable store0 "s1" 5 sessionRec0
    (by decide)
  exact ⟨by decide, h.1, (h.2 "NEW2" 6).1, (h.2 "NEW2" 6).2⟩

/-! ## C10: the translation cache keys only on (text, target, source) -/

theorem find?_append_singleton (l : List (String × String)) (key v : String)
    (h : l.find? (fun p => p.1 == key) = none) :
    (l ++ [(key, v)]).find? (fun p => p.1 == key) = some (key, v) := by
  induction l with
  | nil => simp [List.find?]
  | cons p rest ih =>
    by_cases hk : p.1 == key
    · simp [List.find?, hk] at h
    · simp only [List.find?, hk, List.cons_append] at h ⊢
      simpa [List.find?, hk] using ih h

theorem engineTranslateText_hit (cfg : EngineConfig)
    (st : TranslationEngineState) (text tl : String) (sl : Option String)
    (cd : List (String × String)) (ctx : Option String) (kv : String × String)
    (h : st.cache.find? (fun p => p.1 == cacheKey text tl sl) = some kv) :
    engineTranslateText cfg st text tl sl cd ctx = (.ok kv.2, st, false) := by
  simp [engineTranslateText, h]

theorem engineTranslateText_miss_ok (cfg : EngineConfig)
    (st : TranslationEngineState) (text tl : String) (sl : Option String)
    (cd : List (String × String)) (ctx : Option String) (r0 : String)
    (hn : st.cache.find? (fun p => p.1 == cacheKey text tl sl) = none)
    (ha : engineAttempt cfg text tl sl cd ctx = .ok r0) :
    engineTranslateText cfg st text tl sl cd ctx =
      (.ok r0, ⟨st.cache ++ [(cacheKey text tl sl, r0)]⟩, true) := by
  simp [engineTranslateText, hn, ha]

/-- C10: a call of `TranslationEngine.translate_text` that completes through
the translator chain (no exception fallback) caches its result under
`(text, target_lang, source_lang)`; a repeated call with the same three key
components returns that cached result and consults no translator backend
(third component `false`), even with different `custom_dict` and `context`
arguments. -/
theorem engine_cache_ignores_dict_and_context (cfg : EngineConfig)
    (st : TranslationEngineState) (text tl : String) (sl : Option String)
    (cd1 cd2 : List (String × String)) (ctx1 ctx2 : Option String) (r : String)
    (st1 : TranslationEngineState) (b : Bool)
    (h1 : engineTranslateText cfg st text tl sl cd1 ctx1 = (.ok r, st1, b))
    (h2 : ∃ r0, engineAttempt cfg text tl sl cd1 ctx1 = .ok r0) :
    engineTranslateText cfg st1 text tl sl cd2 ctx2 = (.ok r, st1, false) := by
  obtain ⟨r0, ha⟩ := h2
  cases hfind : st.cache.find? (fun p => p.1 == cacheKey text tl sl) with
  | some kv =>
    rw [engineTranslateText_hit cfg st text tl sl cd1 ctx1 kv hfind] at h1
    simp only [Prod.mk.injEq, Except.ok.injEq] at h1
    obtain ⟨hr, hst, _⟩ := h1
    rw [engineTranslateText_hit cfg st1 text tl sl cd2 ctx2 kv
      (by rw [← hst]; exact hfind), hr]
  | none =>
    rw [engineTranslateText_miss_ok cfg st text tl sl cd1 ctx1 r0 hfind ha] at h1
    simp only [Prod.mk.injEq, Except.ok.injEq] at h1
    obtain ⟨hr, hst, _⟩ := h1
    have hcache : st1.cache = st.cache ++ [(cacheKey text tl sl, r0)] := by
      rw [← hst]
    rw [engineTranslateText_hit cfg st1 text tl sl cd2 ctx2
      (cacheKey text tl sl, r0)
      (by rw [hcache]; exact find?_append_singleton _ _ _ hfind), hr]

/-- C10 witness: the concrete engine; the first call (with a custom dictionary
and context) caches `"Thi"`, the second call (different dictionary, no
context) returns it from the cache without touching any backend. -/
theorem engine_cache_ignores_dict_and_context_witness :
    engineTranslateText engineCfg1 ⟨[("hi_vi_auto", "Thi")]⟩ "hi" "vi" none []
      none = (.ok "Thi", ⟨[("hi_vi_auto", "Thi")]⟩, false) := by
  exact engine_cache_ignores_dict_and_context engineCfg1 ⟨[]⟩ "hi" "vi" none
    [("a", "b")] [] (some "c1") none "Thi" ⟨[("hi_vi_auto", "Thi")]⟩ true
    (by decide) ⟨"Thi", by decide⟩

/-! ## C7: the replace tool and the agent's content-updated flag -/

theorem foldl_add_shift (l : List Nat) (a : Nat) :
    l.foldl (· + ·) a = a + l.foldl (· + ·) 0 := by
  induction l generalizing a with
  | nil => simp
  | cons x xs ih =>
    simp only [List.foldl_cons]
    rw [ih (a + x), ih (0 + x)]
    omega

theorem frameReplace_snd (old new : String) (f : TFrame) :
    (frameReplace old new f).2 =
      if (match f.frameText with
          | some t => ciContains t old
          | none => false) then 1 else 0 := by
  cases f with
  | mk ft =>
    cases ft with
    | none => rfl
    | some t =>
      by_cases hc : ciContains t old <;> simp [frameReplace, hc]

theorem framesCount (old new : String) (fs : List TFrame) :
    ((fs.map (frameReplace old new)).map (fun p => p.2)).foldl (· + ·) 0 =
      fs.countP (fun f => match f.frameText with
        | some t => ciContains t old
        | none => false) := by
  induction fs with
  | nil => rfl
  | cons f fs ih =>
    simp only [List.map_cons, List.foldl_cons, List.countP_cons]
    rw [foldl_add_shift, ih, frameReplace_snd]
    by_cases hp : (match f.frameText with
        | some t => ciContains t old
        | none => false)
    · simp only [hp, if_true]
      omega
    · simp only [hp, if_false]
      omega

theorem slideReplace_snd (old new : String) (sl : TSlide) :
    (slideReplace old new sl).2 =
      (sl.shapes.flatMap (fun sh => sh.textFrames)).countP
        (fun f => match f.frameText with
          | some t => ciContains t old
          | none => false) := by
  cases sl with
  | mk shapes =>
    induction shapes with
    | nil => rfl
    | cons sh shs ih =>
      simp only [slideReplace, List.map_cons, List.foldl_cons, List.flatMap_cons,
        List.countP_append] at ih ⊢
      rw [foldl_add_shift, framesCount]
      omega

theorem slideReplace_fst (old new : String) (sl : TSlide) :
    (slideReplace old new sl).1 =
      ⟨sl.shapes.map (fun sh =>
        ⟨sh.textFrames.map (fun f => (frameReplace old new f).1)⟩)⟩ := by
  simp [slideReplace, List.map_map, Function.comp]

theorem executeReplace_all_spec (c : TContent) (old new : String) :
    executeReplace c old new none =
      { success := true, count := countMatchedFrames old c,
        updatedContent := some (ciReplaceContent old new c) } := by
  cases c with
  | mk slides =>
    simp only [executeReplace, ReplaceResult.mk.injEq, Option.some.injEq]
    refine ⟨trivial, ?_, ?_⟩
    · induction slides with
      | nil => rfl
      | cons sl sls ih =>
        simp only [List.map_cons, List.foldl_cons, countMatchedFrames,
          List.flatMap_cons, List.countP_append] at ih ⊢
        rw [foldl_add_shift, slideReplace_snd]
        omega
    · simp only [ciReplaceContent, TContent.mk.injEq, List.map_map]
      refine List.map_congr_left ?_
      intro sl _
      simp only [Function.comp_apply, slideReplace_fst]

/-- C7: `PPTXReplaceTool.execute(old, new)` performs case-insensitive substring
matching and replaces all occurrences in every text frame in scope, returning
`success=True`, a `count` of the frames changed, and the updated content; on
the two-slide deck where `AI` appears in two frames, it reports `count=2`,
updates both frames, and the agent's plan-execution loop reports
`content_updated=True` with the updated deck. -/
theorem replace_tool_replaces_all_and_reports (old new : String) :
    (∀ c : TContent,
      executeReplace c old new none =
        { success := true, count := countMatchedFrames old c,
          updatedContent := some (ciReplaceContent old new c) }) ∧
    (executeReplace tcAI "AI" "trí tuệ nhân tạo" none).count = 2 ∧
    (executeReplace tcAI "AI" "trí tuệ nhân tạo" none).updatedContent =
      some tcAIExpected ∧
    agentExecutePlan tcAI [PlanStep.replaceTool "AI" "trí tuệ nhân tạo" none] =
      (tcAIExpected, true) := by
  refine ⟨fun c => executeReplace_all_spec c old new, ?_, ?_, ?_⟩ <;> decide

/-! ## C2: PPTX round-trip identity -/

theorem pptx_applyFrames_roundtrip (fs : List PFrame) (trs : List String)
    (i : Nat) (rest : List String)
    (h : trs.drop i = PPTX.frameTexts fs ++ rest) :
    PPTX.applyFrames fs trs i = (fs, i + (PPTX.frameTexts fs).length) := by
  induction fs generalizing i with
  | nil => simp [PPTX.applyFrames, PPTX.frameTexts]
  | cons f fs ih =>
    by_cases hf : pyStrip f.text ≠ ""
    · have hft : PPTX.frameTexts (f :: fs) = f.text :: PPTX.frameTexts fs := by
        simp [PPTX.frameTexts, hf]
      rw [hft] at h
      simp only [List.cons_append] at h
      obtain ⟨hg, hlt, hdrop⟩ := lDrop_cons_getD trs i f.text _ "" h
      have hfeq : { f with text := trs.getD i "" } = f := by rw [hg]
      simp only [PPTX.applyFrames]
      rw [if_pos ⟨hf, hlt⟩, ih (i + 1) (by rw [hdrop]), hfeq, hft]
      exact Prod.ext rfl (by simp only [List.length_cons]; omega)
    · have hft : PPTX.frameTexts (f :: fs) = PPTX.frameTexts fs := by
        simp only [ne_eq, not_not] at hf
        simp [PPTX.frameTexts, hf]
      rw [hft] at h
      simp only [PPTX.applyFrames]
      rw [if_neg (fun hh => hf hh.1), ih i h, hft]

theorem pptx_applyTCells_roundtrip (cs : List PCell) (trs : List String)
    (i : Nat) (rest : List String)
    (h : trs.drop i = PPTX.tcellTexts cs ++ rest) :
    PPTX.applyTCells cs trs i = (cs, i + (PPTX.tcellTexts cs).length) := by
  induction cs generalizing i with
  | nil => simp [PPTX.applyTCells, PPTX.tcellTexts]
  | cons c cs ih =>
    by_cases hc : pyStrip c.text ≠ ""
    · have hct : PPTX.tcellTexts (c :: cs) = c.text :: PPTX.tcellTexts cs := by
        simp [PPTX.tcellTexts, hc]
      rw [hct] at h
      simp only [List.cons_append] at h
      obtain ⟨hg, hlt, hdrop⟩ := lDrop_cons_getD trs i c.text _ "" h
      have hceq : { c with text := trs.getD i "" } = c := by rw [hg]
      simp only [PPTX.applyTCells]
      rw [if_pos ⟨hc, hlt⟩, ih (i + 1) (by rw [hdrop]), hceq, hct]
      exact Prod.ext rfl (by simp only [List.length_cons]; omega)
    · have hct : PPTX.tcellTexts (c :: cs) = PPTX.tcellTexts cs := by
        simp only [ne_eq, not_not] at hc
        simp [PPTX.tcellTexts, hc]
      rw [hct] at h
      simp only [PPTX.applyTCells]
      rw [if_neg (fun hh => hc hh.1), ih i h, hct]

theorem pptx_applyRows_roundtrip (rows : List PRow) (trs : List String)
    (i : Nat) (rest : List String)
    (h : trs.drop i = PPTX.tableTexts rows ++ rest) :
    PPTX.applyRows rows trs i = (rows, i + (PPTX.tableTexts rows).length) := by
  induction rows generalizing i rest with
  | nil => simp [PPTX.applyRows, PPTX.tableTexts]
  | cons r rs ih =>
    have hrt : PPTX.tableTexts (r :: rs) =
        PPTX.tcellTexts r.cells ++ PPTX.tableTexts rs := by
      simp [PPTX.tableTexts]
    rw [hrt, List.append_assoc] at h
    have hdrop2 : trs.drop (i + (PPTX.tcellTexts r.cells).length) =
        PPTX.tableTexts rs ++ rest := by
      have h2 := congrArg (List.drop (PPTX.tcellTexts r.cells).length) h
      rw [List.drop_drop, List.drop_left] at h2
      exact h2
    simp only [PPTX.applyRows]
    rw [pptx_applyTCells_roundtrip r.cells trs i _ h,
      ih (i + (PPTX.tcellTexts r.cells).length) rest hdrop2, hrt]
    exact Prod.ext rfl (by simp only [List.length_append]; omega)

theorem pptx_applyShape_roundtrip (sh : PShape) (trs : List String) (i : Nat)
    (rest : List String) (h : trs.drop i = PPTX.shapeTexts sh ++ rest) :
    PPTX.applyShape sh trs i = (sh, i + (PPTX.shapeTexts sh).length) := by
  by_cases hA : sh.textFrames.isEmpty
  · by_cases hB : optStrTruthy sh.textContent
    · have hst : PPTX.shapeTexts sh = [sh.textContent.getD ""] := by
        simp [PPTX.shapeTexts, hA, hB]
      rw [hst] at h
      simp only [List.cons_append, List.nil_append] at h
      obtain ⟨hg, hlt, hdrop⟩ :=
        lDrop_cons_getD trs i (sh.textContent.getD "") rest "" h
      obtain ⟨s, hs⟩ : ∃ s, sh.textContent = some s := by
        cases hsc : sh.textContent with
        | none => rw [hsc] at hB; simp [optStrTruthy] at hB
        | some s => exact ⟨s, rfl⟩
      have hfield : some (trs.getD i "") = sh.textContent := by
        rw [hg, hs]
        rfl
      simp only [PPTX.applyShape]
      rw [if_neg (not_not_intro hA), if_pos ⟨hB, hlt⟩, hfield, hst]
      exact Prod.ext rfl rfl
    · by_cases hC : tableTruthy sh.tableData
      · obtain ⟨l, hl⟩ : ∃ l, sh.tableData = some l := by
          cases hsc : sh.tableData with
          | none => rw [hsc] at hC; simp [tableTruthy] at hC
          | some l => exact ⟨l, rfl⟩
        have hget : sh.tableData.getD [] = l := by rw [hl]; rfl
        have hst : PPTX.shapeTexts sh = PPTX.tableTexts l := by
          simp only [PPTX.shapeTexts]
          rw [if_neg (not_not_intro hA), if_neg hB, if_pos hC, hget]
        rw [hst] at h
        simp only [PPTX.applyShape]
        rw [if_neg (not_not_intro hA), if_neg (fun hh => hB hh.1), if_pos hC,
          hget, pptx_applyRows_roundtrip l trs i rest h, hst]
        have hback : some l = sh.tableData := hl.symm
        rw [hback]
      · have hst : PPTX.shapeTexts sh = [] := by
          simp [PPTX.shapeTexts, hA, hB, hC]
        simp only [PPTX.applyShape]
        rw [if_neg (not_not_intro hA), if_neg (fun hh => hB hh.1), if_neg hC,
          hst]
        simp
  · have hst : PPTX.shapeTexts sh = PPTX.frameTexts sh.textFrames := by
      simp [PPTX.shapeTexts, hA]
    rw [hst] at h
    simp only [PPTX.applyShape]
    rw [if_pos hA, pptx_applyFrames_roundtrip sh.textFrames trs i rest h, hst]

theorem pptx_applyShapes_roundtrip (shs : List PShape) (trs : List String)
    (i : Nat) (rest : List String)
    (h : trs.drop i = shs.flatMap PPTX.shapeTexts ++ rest) :
    PPTX.applyShapes shs trs i =
      (shs, i + (shs.flatMap PPTX.shapeTexts).length) := by
  induction shs generalizing i rest with
  | nil => simp [PPTX.applyShapes]
  | cons sh shs ih =>
    rw [List.flatMap_cons, List.append_assoc] at h
    have hdrop2 : trs.drop (i + (PPTX.shapeTexts sh).length) =
        shs.flatMap PPTX.shapeTexts ++ rest := by
      have h2 := congrArg (List.drop (PPTX.shapeTexts sh).length) h
      rw [List.drop_drop, List.drop_left] at h2
      exact h2
    simp only [PPTX.applyShapes]
    rw [pptx_applyShape_roundtrip sh trs i _ h,
      ih (i + (PPTX.shapeTexts sh).length) rest hdrop2, List.flatMap_cons]
    exact Prod.ext rfl (by simp only [List.length_append]; omega)

theorem pptx_applySlides_roundtrip (sls : List PSlide) (trs : List String)
    (i : Nat) (rest : List String)
    (h : trs.drop i = sls.flatMap (fun sl => sl.shapes.flatMap PPTX.shapeTexts)
          ++ rest) :
    PPTX.applySlides sls trs i =
      (sls, i + (sls.flatMap (fun sl => sl.shapes.flatMap PPTX.shapeTexts)).length) := by
  induction sls generalizing i rest with
  | nil => simp [PPTX.applySlides]
  | cons sl sls ih =>
    rw [List.flatMap_cons, List.append_assoc] at h
    have hdrop2 : trs.drop (i + (sl.shapes.flatMap PPTX.shapeTexts).length) =
        sls.flatMap (fun sl => sl.shapes.flatMap PPTX.shapeTexts) ++ rest := by
      have h2 := congrArg (List.drop (sl.shapes.flatMap PPTX.shapeTexts).length) h
      rw [List.drop_drop, List.drop_left] at h2
      exact h2
    simp only [PPTX.applySlides]
    rw [pptx_applyShapes_roundtrip sl.shapes trs i _ h,
      ih (i + (sl.shapes.flatMap PPTX.shapeTexts).length) rest hdrop2,
      List.flatMap_cons]
    exact Prod.ext rfl (by simp only [List.length_append]; omega)

/-- C2: reapplying a PPTX content tree's own flattened texts reconstructs a
textually identical tree:
`apply_translations(tree, get_translatable_texts(tree)) = tree` for every
content tree.  Reapplication is pure by construction — it operates on a deep
copy (here: a function of the input), so the input tree is never modified. -/
theorem pptx_roundtrip_identity (c : PContent) :
    PPTX.applyTranslations c (PPTX.getTranslatableTexts c) = c := by
  have h : (PPTX.getTranslatableTexts c).drop 0 =
      c.slides.flatMap (fun sl => sl.shapes.flatMap PPTX.shapeTexts) ++ [] := by
    simp [PPTX.getTranslatableTexts]
  simp only [PPTX.applyTranslations]
  rw [pptx_applySlides_roundtrip c.slides (PPTX.getTranslatableTexts c) 0 [] h]

/-! ## C1: XLSX flattening alignment after reapplication -/

/-- C1 counterexample: the one-cell workbook flattens to one unit, but after
applying the matching-length translation list `[""]` (an empty translated
string — exactly what `_parse_numbered_response` pads with on a short reply),
the translated tree flattens to zero units: the two flattenings do not
enumerate the same number of units. -/
theorem xlsx_flatten_length_counterexample :
    ([""] : List String).length = (XLSX.getTranslatableTexts xlsxDoc1).length ∧
    (XLSX.getTranslatableTexts (XLSX.applyTranslations xlsxDoc1 [""])).length ≠
      (XLSX.getTranslatableTexts xlsxDoc1).length := by
  decide

theorem xlsx_translatable_iff (t : String) :
    XLSX.translatable t = true ↔ pyStrip t ≠ "" ∧ isPyFloat t = false := by
  simp [XLSX.translatable]

theorem xlsx_cellTexts_cons_pos (x : XCell) (l : List XCell)
    (h : XLSX.translatable x.text = true) :
    XLSX.cellTexts (x :: l) = x.text :: XLSX.cellTexts l := by
  simp [XLSX.cellTexts, h]

theorem xlsx_cellTexts_cons_neg (x : XCell) (l : List XCell)
    (h : ¬ XLSX.translatable x.text = true) :
    XLSX.cellTexts (x :: l) = XLSX.cellTexts l := by
  simp [XLSX.cellTexts, h]

theorem xlsx_cellCoords_cons_pos (x : XCell) (l : List XCell)
    (h : XLSX.translatable x.text = true) :
    XLSX.cellCoords (x :: l) = x.coordinate :: XLSX.cellCoords l := by
  simp [XLSX.cellCoords, h]

theorem xlsx_cellCoords_cons_neg (x : XCell) (l : List XCell)
    (h : ¬ XLSX.translatable x.text = true) :
    XLSX.cellCoords (x :: l) = XLSX.cellCoords l := by
  simp [XLSX.cellCoords, h]

set_option maxHeartbeats 1000000 in
theorem xlsx_applyCells_spec (cs : List XCell) (trs : List String) (i : Nat)
    (hlen : i + (XLSX.cellTexts cs).length ≤ trs.length)
    (hall : ∀ t ∈ trs, XLSX.translatable t = true) :
    (XLSX.applyCells cs trs i).2 = i + (XLSX.cellTexts cs).length ∧
    XLSX.cellTexts (XLSX.applyCells cs trs i).1 =
      (trs.drop i).take (XLSX.cellTexts cs).length ∧
    XLSX.cellCoords (XLSX.applyCells cs trs i).1 = XLSX.cellCoords cs := by
  induction cs generalizing i with
  | nil => simp [XLSX.applyCells, XLSX.cellTexts, XLSX.cellCoords]
  | cons cell cs ih =>
    by_cases ht : XLSX.translatable cell.text = true
    · have hct := xlsx_cellTexts_cons_pos cell cs ht
      have hcc := xlsx_cellCoords_cons_pos cell cs ht
      rw [hct] at hlen
      simp only [List.length_cons] at hlen
      have hlt : i < trs.length := by omega
      have htr : XLSX.translatable (trs.getD i "") = true :=
        hall _ (lGetD_mem trs i "" hlt)
      obtain ⟨ih2, ihts, ihcs⟩ := ih (i + 1) (by omega)
      simp only [XLSX.applyCells]
      rw [if_pos ht, if_pos hlt]
      refine ⟨?_, ?_, ?_⟩
      · show (XLSX.applyCells cs trs (i + 1)).2 =
          i + (XLSX.cellTexts (cell :: cs)).length
        rw [ih2, hct]
        simp only [List.length_cons]
        omega
      · show XLSX.cellTexts ({ cell with text := trs.getD i "" } ::
            (XLSX.applyCells cs trs (i + 1)).1) =
          (trs.drop i).take (XLSX.cellTexts (cell :: cs)).length
        rw [xlsx_cellTexts_cons_pos _ _ htr, ihts, hct]
        simp only [List.length_cons]
        rw [lDrop_eq_getD_cons trs i "" hlt, List.take_succ_cons]
      · show XLSX.cellCoords ({ cell with text := trs.getD i "" } ::
            (XLSX.applyCells cs trs (i + 1)).1) = XLSX.cellCoords (cell :: cs)
        rw [xlsx_cellCoords_cons_pos _ _ htr, ihcs, hcc]
    · have hct := xlsx_cellTexts_cons_neg cell cs ht
      have hcc := xlsx_cellCoords_cons_neg cell cs ht
      rw [hct] at hlen
      obtain ⟨ih2, ihts, ihcs⟩ := ih i hlen
      simp only [XLSX.applyCells]
      rw [if_neg ht]
      refine ⟨?_, ?_, ?_⟩
      · show (XLSX.applyCells cs trs i).2 =
          i + (XLSX.cellTexts (cell :: cs)).length
        rw [hct, ih2]
      · show XLSX.cellTexts (cell :: (XLSX.applyCells cs trs i).1) =
          (trs.drop i).take (XLSX.cellTexts (cell :: cs)).length
        rw [xlsx_cellTexts_cons_neg _ _ ht, ihts, hct]
      · show XLSX.cellCoords (cell :: (XLSX.applyCells cs trs i).1) =
          XLSX.cellCoords (cell :: cs)
        rw [xlsx_cellCoords_cons_neg _ _ ht, ihcs, hcc]

theorem take_drop_chunk (l : List α) (i m n : Nat) :
    (l.drop i).take m ++ (l.drop (i + m)).take n = (l.drop i).take (m + n) := by
  have hd : l.drop (i + m) = (l.drop i).drop m := by
    rw [List.drop_drop]
  rw [hd, ← List.take_add]

theorem xlsx_applySheets_spec (wss : List XSheet) (trs : List String) (i : Nat)
    (hlen : i + (wss.flatMap (fun ws => XLSX.cellTexts ws.cells)).length ≤
      trs.length)
    (hall : ∀ t ∈ trs, XLSX.translatable t = true) :
    (XLSX.applySheets wss trs i).2 =
      i + (wss.flatMap (fun ws => XLSX.cellTexts ws.cells)).length ∧
    (XLSX.applySheets wss trs i).1.flatMap (fun ws => XLSX.cellTexts ws.cells) =
      (trs.drop i).take (wss.flatMap (fun ws => XLSX.cellTexts ws.cells)).length ∧
    (XLSX.applySheets wss trs i).1.flatMap (fun ws => XLSX.cellCoords ws.cells) =
      wss.flatMap (fun ws => XLSX.cellCoords ws.cells) := by
  induction wss generalizing i with
  | nil => simp [XLSX.applySheets]
  | cons ws wss ih =>
    rw [List.flatMap_cons, List.length_append] at hlen
    obtain ⟨c2, cts, ccs⟩ := xlsx_applyCells_spec ws.cells trs i (by omega) hall
    obtain ⟨ih2, ihts, ihcs⟩ := ih (i + (XLSX.cellTexts ws.cells).length)
      (by omega)
    simp only [XLSX.applySheets, c2]
    refine ⟨?_, ?_, ?_⟩
    · rw [ih2, List.flatMap_cons, List.length_append]
      omega
    · show XLSX.cellTexts (XLSX.applyCells ws.cells trs i).1 ++
        (XLSX.applySheets wss trs (i + (XLSX.cellTexts ws.cells).length)).1.flatMap
          (fun ws => XLSX.cellTexts ws.cells) = _
      rw [cts, ihts, List.flatMap_cons, List.length_append, take_drop_chunk]
    · show XLSX.cellCoords (XLSX.applyCells ws.cells trs i).1 ++
        (XLSX.applySheets wss trs (i + (XLSX.cellTexts ws.cells).length)).1.flatMap
          (fun ws => XLSX.cellCoords ws.cells) = _
      rw [ccs, ihcs, List.flatMap_cons]

/-- C1 amended: when every translated string is itself translatable-looking
(non-empty after stripping and not parsable as a Python float), reapplying a
matching-length translation list to an XLSX content tree gives a tree whose
flattening is exactly the translation list — same number of units, at
identical coordinates, in identical order.  (Without that condition the claim
fails: an empty or numeric translated string is skipped by the re-flattening,
see the counterexample.) -/
theorem xlsx_flatten_apply_aligned (c : XContent) (trs : List String)
    (hlen : trs.length = (XLSX.getTranslatableTexts c).length)
    (hall : ∀ t ∈ trs, pyStrip t ≠ "" ∧ isPyFloat t = false) :
    XLSX.getTranslatableTexts (XLSX.applyTranslations c trs) = trs ∧
    XLSX.coords (XLSX.applyTranslations c trs) = XLSX.coords c ∧
    (XLSX.getTranslatableTexts (XLSX.applyTranslations c trs)).length =
      (XLSX.getTranslatableTexts c).length := by
  have hall' : ∀ t ∈ trs, XLSX.translatable t = true := fun t htm =>
    (xlsx_translatable_iff t).mpr (hall t htm)
  have hflat : XLSX.getTranslatableTexts c =
      c.worksheets.flatMap (fun ws => XLSX.cellTexts ws.cells) := rfl
  obtain ⟨h2, hts, hcs⟩ := xlsx_applySheets_spec c.worksheets trs 0
    (by rw [← hflat, ← hlen]; omega) hall'
  have hmain : XLSX.getTranslatableTexts (XLSX.applyTranslations c trs) = trs := by
    show (XLSX.applySheets c.worksheets trs 0).1.flatMap
      (fun ws => XLSX.cellTexts ws.cells) = trs
    rw [hts, ← hflat, ← hlen, List.drop_zero, List.take_length]
  refine ⟨hmain, ?_, by rw [hmain, hlen]⟩
  show (XLSX.applySheets c.worksheets trs 0).1.flatMap
    (fun ws => XLSX.cellCoords ws.cells) = XLSX.coords c
  rw [hcs]
  rfl

/-- C1 amended, witness: the one-cell workbook with the translatable
translation `["xin chào"]`. -/
theorem xlsx_flatten_apply_aligned_witness :
    (["xin chào"] : List String).length =
      (XLSX.getTranslatableTexts xlsxDoc1).length ∧
    XLSX.getTranslatableTexts (XLSX.applyTranslations xlsxDoc1 ["xin chào"]) =
      ["xin chào"] ∧
    XLSX.coords (XLSX.applyTranslations xlsxDoc1 ["xin chào"]) =
      XLSX.coords xlsxDoc1 := by
  have h := xlsx_flatten_apply_aligned xlsxDoc1 ["xin chào"] (by decide)
    (by decide)
  exact ⟨by decide, h.1, h.2.1⟩

/-! ## C3: length/order guarantee of `translate_texts_with_context` -/

/-- C3 counterexample: with batch size `0`, `range(0, len(non_empty_texts), 0)`
raises `ValueError`, so the call does not return `len(texts)` strings at all —
the guarantee does not hold for *every* batch size. -/
theorem translate_batch_size_zero_counterexample :
    translateTextsWithContext idOrc ["hi"] none [] [] 0 =
      .error PyError.valueError := by
  decide

theorem sne_len (ts : List String) (i : Nat) :
    (splitNonEmpty ts i).1.length = (splitNonEmpty ts i).2.length := by
  induction ts generalizing i with
  | nil => rfl
  | cons t ts ih =>
    by_cases h : pyStrip t ≠ "" <;> simp [splitNonEmpty, h, ih (i + 1)]

theorem sne_mem_bounds (ts : List String) (i : Nat) :
    ∀ x ∈ (splitNonEmpty ts i).2, i ≤ x ∧ x < i + ts.length := by
  induction ts generalizing i with
  | nil => simp [splitNonEmpty]
  | cons t ts ih =>
    intro x hx
    by_cases h : pyStrip t ≠ ""
    · simp only [splitNonEmpty, if_pos h, List.mem_cons] at hx
      rcases hx with hx | hx
      · subst hx
        simp
      · have := ih (i + 1) x hx
        simp only [List.length_cons]
        omega
    · simp only [splitNonEmpty, if_neg h] at hx
      have := ih (i + 1) x hx
      simp only [List.length_cons]
      omega

theorem sne_pairwise (ts : List String) (i : Nat) :
    List.Pairwise (· < ·) (splitNonEmpty ts i).2 := by
  induction ts generalizing i with
  | nil => simp [splitNonEmpty]
  | cons t ts ih =>
    by_cases h : pyStrip t ≠ ""
    · simp only [splitNonEmpty, if_pos h]
      refine List.pairwise_cons.mpr ⟨?_, ih (i + 1)⟩
      intro x hx
      have := sne_mem_bounds ts (i + 1) x hx
      omega
    · simp only [splitNonEmpty, if_neg h]
      exact ih (i + 1)

theorem sne_texts_strip (ts : List String) (i : Nat) :
    ∀ x ∈ (splitNonEmpty ts i).1, pyStrip x ≠ "" := by
  induction ts generalizing i with
  | nil => simp [splitNonEmpty]
  | cons t ts ih =>
    intro x hx
    by_cases h : pyStrip t ≠ ""
    · simp only [splitNonEmpty, if_pos h, List.mem_cons] at hx
      rcases hx with hx | hx
      · subst hx; exact h
      · exact ih (i + 1) x hx
    · simp only [splitNonEmpty, if_neg h] at hx
      exact ih (i + 1) x hx

theorem sne_getD (ts : List String) (i j : Nat)
    (hj : j < (splitNonEmpty ts i).2.length) :
    ts.getD ((splitNonEmpty ts i).2.getD j 0 - i) "" =
      (splitNonEmpty ts i).1.getD j "" := by
  induction ts generalizing i j with
  | nil => simp [splitNonEmpty] at hj
  | cons t ts ih =>
    by_cases h : pyStrip t ≠ ""
    · simp only [splitNonEmpty, if_pos h] at hj ⊢
      cases j with
      | zero => simp
      | succ k =>
        simp only [List.getD_cons_succ]
        have hk : k < (splitNonEmpty ts (i + 1)).2.length := by
          simpa using hj
        have hb := sne_mem_bounds ts (i + 1)
          ((splitNonEmpty ts (i + 1)).2.getD k 0)
          (lGetD_mem _ k 0 hk)
        have := ih (i + 1) k hk
        have harith : (splitNonEmpty ts (i + 1)).2.getD k 0 - i =
            ((splitNonEmpty ts (i + 1)).2.getD k 0 - (i + 1)) + 1 := by
          omega
        rw [harith, List.getD_cons_succ]
        exact this
    · simp only [splitNonEmpty, if_neg h] at hj ⊢
      have hb := sne_mem_bounds ts (i + 1)
        ((splitNonEmpty ts (i + 1)).2.getD j 0)
        (lGetD_mem _ j 0 hj)
      have := ih (i + 1) j hj
      have harith : (splitNonEmpty ts (i + 1)).2.getD j 0 - i =
          ((splitNonEmpty ts (i + 1)).2.getD j 0 - (i + 1)) + 1 := by
        omega
      rw [harith, List.getD_cons_succ]
      exact this

theorem place_length (res : List String) (mp : List Nat) (trs : List String)
    (i : Nat) : (placeGo res mp trs i).length = res.length := by
  induction trs generalizing res i with
  | nil => rfl
  | cons t ts ih =>
    simp only [placeGo]
    rw [ih]
    by_cases h : mp.getD i i < res.length
    · rw [if_pos h, List.length_set]
    · rw [if_neg h]

theorem place_untouched (res : List String) (mp : List Nat) (trs : List String)
    (i p : Nat) (d : String)
    (h : ∀ k, k < trs.length → mp.getD (i + k) (i + k) ≠ p) :
    (placeGo res mp trs i).getD p d = res.getD p d := by
  induction trs generalizing res i with
  | nil => rfl
  | cons t ts ih =>
    simp only [placeGo]
    rw [ih _ (i + 1) (fun k hk => by
      have := h (k + 1) (by simpa using Nat.succ_lt_succ hk)
      rwa [show i + (k + 1) = i + 1 + k from by omega] at this)]
    by_cases hg : mp.getD i i < res.length
    · rw [if_pos hg]
      exact lGetD_set_other res (mp.getD i i) p t d
        (by simpa using h 0 (by simp))
    · rw [if_neg hg]

theorem place_at (res : List String) (mp : List Nat) (trs : List String)
    (i : Nat) (hp : List.Pairwise (· < ·) mp)
    (hb : ∀ x ∈ mp, x < res.length) (hlen : i + trs.length ≤ mp.length) :
    ∀ k, k < trs.length →
      (placeGo res mp trs i).getD (mp.getD (i + k) 0) "" = trs.getD k "" := by
  induction trs generalizing res i with
  | nil => intro k hk; simp at hk
  | cons t ts ih =>
    intro k hk
    simp only [List.length_cons] at hlen
    have hi : i < mp.length := by omega
    have horig : mp.getD i i = mp.getD i 0 := lGetD_irrel mp i i 0 hi
    have hltres : mp.getD i 0 < res.length := hb _ (lGetD_mem mp i 0 hi)
    simp only [placeGo]
    rw [horig, if_pos hltres]
    cases k with
    | zero =>
      simp only [Nat.add_zero, List.getD_cons_zero]
      rw [place_untouched _ mp ts (i + 1) (mp.getD i 0) ""
        (fun k' hk' => by
          have hlt' : i + 1 + k' < mp.length := by omega
          rw [lGetD_irrel mp (i + 1 + k') (i + 1 + k') 0 hlt']
          exact Nat.ne_of_gt (lPairwise_getD mp hp i (i + 1 + k') (by omega)
            hlt'))]
      exact lGetD_set_self res (mp.getD i 0) t "" hltres
    | succ k' =>
      rw [show i + (k' + 1) = (i + 1) + k' from by omega]
      have hb' : ∀ x ∈ mp, x < (res.set (mp.getD i 0) t).length := by
        intro x hx
        rw [List.length_set]
        exact hb x hx
      rw [ih (res.set (mp.getD i 0) t) (i + 1) hb' (by omega) k'
        (by simpa using hk)]
      simp

theorem fill_length (res ts : List String) (i : Nat) :
    (fillGo res ts i).length = res.length := by
  induction ts generalizing res i with
  | nil => rfl
  | cons t ts ih =>
    simp only [fillGo]
    rw [ih]
    by_cases h : pyStrip t = "" <;> simp [h]

theorem fill_lt_untouched (res ts : List String) (i j : Nat) (d : String)
    (hj : j < i) : (fillGo res ts i).getD j d = res.getD j d := by
  induction ts generalizing res i with
  | nil => rfl
  | cons t ts ih =>
    simp only [fillGo]
    rw [ih _ (i + 1) (by omega)]
    by_cases h : pyStrip t = ""
    · rw [if_pos h]
      exact lGetD_set_other res i j t d (by omega)
    · rw [if_neg h]

theorem fill_empty (res ts : List String) (i : Nat)
    (hres : i + ts.length ≤ res.length) (k : Nat) (hk : k < ts.length)
    (he : pyStrip (ts.getD k "") = "") :
    (fillGo res ts i).getD (i + k) "" = ts.getD k "" := by
  induction ts generalizing res i k with
  | nil => simp at hk
  | cons t ts ih =>
    simp only [List.length_cons] at hres
    cases k with
    | zero =>
      simp only [List.getD_cons_zero] at he ⊢
      simp only [fillGo, if_pos he]
      rw [fill_lt_untouched _ ts (i + 1) (i + 0) "" (by omega)]
      rw [show i + 0 = i from by omega]
      exact lGetD_set_self res i t "" (by omega)
    | succ k' =>
      simp only [List.getD_cons_succ] at he ⊢
      simp only [fillGo]
      rw [show i + (k' + 1) = (i + 1) + k' from by omega]
      exact ih _ (i + 1)
        (by by_cases h : pyStrip t = "" <;> simp [h, List.length_set] <;> omega)
        k' (by simpa using hk) he

theorem fill_keep (res ts : List String) (i : Nat) (k : Nat)
    (hk : k < ts.length) (hne : pyStrip (ts.getD k "") ≠ "") :
    (fillGo res ts i).getD (i + k) "" = res.getD (i + k) "" := by
  induction ts generalizing res i k with
  | nil => simp at hk
  | cons t ts ih =>
    cases k with
    | zero =>
      simp only [List.getD_cons_zero] at hne
      simp only [fillGo, if_neg hne]
      rw [show i + 0 = i from by omega]
      exact fill_lt_untouched _ ts (i + 1) i "" (by omega)
    | succ k' =>
      simp only [List.getD_cons_succ] at hne
      simp only [fillGo]
      rw [show i + (k' + 1) = (i + 1) + k' from by omega]
      rw [ih _ (i + 1) k' (by simpa using hk) hne]
      by_cases h : pyStrip t = ""
      · rw [if_pos h]
        exact lGetD_set_other res i (i + 1 + k') t "" (by omega)
      · rw [if_neg h]

theorem padTake_length (l : List String) (n : Nat) : (padTake l n).length = n := by
  simp only [padTake, List.length_take, List.length_append, List.length_replicate]
  omega

theorem parseNumberedResponse_length (resp : String) (k : Nat) :
    (parseNumberedResponse resp k).length = k := by
  simp only [parseNumberedResponse]
  exact padTake_length _ k

theorem processBatch_length (orc : LLMOracle)
    (finalG customDict glossary : List (String × String)) (context : Option String)
    (docContext : String) (batch : List String) :
    (processBatch orc finalG customDict glossary context docContext batch).length =
      batch.length := by
  simp only [processBatch]
  cases orc.batchCall docContext
      (pyStrip (numberedInput ((batch.map (fun t =>
        if finalG.isEmpty then (t, ([] : List (String × MarkerInfo)))
        else preprocessWithGlossary t finalG)).map (fun p => p.1)))) with
  | ok resp =>
    simp [List.length_map, List.enum_length, parseNumberedResponse_length]
  | error e =>
    simp

theorem chunksFuel_flatten (n fuel : Nat) (l : List α) (hf : l.length ≤ fuel) :
    (chunksFuel n fuel l).flatMap (fun b => b) = l := by
  induction fuel generalizing l with
  | zero =>
    have : l = [] := List.length_eq_zero.mp (by omega)
    subst this
    rfl
  | succ fuel ih =>
    cases l with
    | nil => rfl
    | cons x xs =>
      simp only [chunksFuel, List.flatMap_cons]
      rw [ih (xs.drop (n - 1)) (by
        have := List.length_drop (n - 1) xs
        simp only [List.length_cons] at hf
        omega)]
      simp [List.take_append_drop]

theorem chunksFuel_mem (n fuel : Nat) (l b : List α) (t : α)
    (hb : b ∈ chunksFuel n fuel l) (ht : t ∈ b) : t ∈ l := by
  induction fuel generalizing l with
  | zero => simp [chunksFuel] at hb
  | succ fuel ih =>
    cases l with
    | nil => simp [chunksFuel] at hb
    | cons x xs =>
      simp only [chunksFuel, List.mem_cons] at hb
      rcases hb with hb | hb
      · subst hb
        rcases List.mem_cons.mp ht with ht | ht
        · simp [ht]
        · exact List.mem_cons_of_mem x (List.take_subset _ _ ht)
      · exact List.mem_cons_of_mem x (List.drop_subset _ _ (ih _ hb))

theorem flatMap_length_congr (bs : List (List String))
    (f : List String → List String) (h : ∀ b ∈ bs, (f b).length = b.length) :
    (bs.flatMap f).length = (bs.flatMap (fun b => b)).length := by
  induction bs with
  | nil => rfl
  | cons b bs ih =>
    simp only [List.flatMap_cons, List.length_append]
    rw [h b (List.mem_cons_self _ _), ih (fun b' hb' => h b' (List.mem_cons_of_mem _ hb'))]

theorem translatedSeq_length (orc : LLMOracle) (texts : List String)
    (context : Option String) (customDict glossary : List (String × String))
    (bs : Nat) :
    (translatedSeq orc texts context customDict glossary bs).length =
      (splitNonEmpty texts 0).1.length := by
  simp only [translatedSeq]
  rw [flatMap_length_congr _ _ (fun b _ => processBatch_length orc _ _ _ _ _ b)]
  rw [show listChunks bs (splitNonEmpty texts 0).1 =
    chunksFuel bs (splitNonEmpty texts 0).1.length (splitNonEmpty texts 0).1
    from rfl]
  rw [chunksFuel_flatten bs _ _ (Nat.le_refl _)]

/-- C3 amended: for every input list, backend, glossary, and *positive* batch
size, `translate_texts_with_context` returns exactly `len(texts)` strings; an
empty or whitespace-only input is reproduced verbatim at its original
position, the j-th non-empty input receives the j-th translated string at its
original position (same order as the input), and every batch sent toward the
backend contains only non-empty texts (empty inputs are never sent).  For
batch size 0 the function instead raises `ValueError` (see the
counterexample), which is the only amendment to the claim. -/
theorem translate_batch_length_order (orc : LLMOracle) (texts : List String)
    (context : Option String) (customDict glossary : List (String × String))
    (bs : Nat) (hbs : 0 < bs) :
    ∃ res : List String,
      translateTextsWithContext orc texts context customDict glossary bs =
        .ok res ∧
      res.length = texts.length ∧
      (∀ i, i < texts.length → pyStrip (texts.getD i "") = "" →
        res.getD i "" = texts.getD i "") ∧
      (∀ j, j < (splitNonEmpty texts 0).2.length →
        res.getD ((splitNonEmpty texts 0).2.getD j 0) "" =
          (translatedSeq orc texts context customDict glossary bs).getD j "") ∧
      (∀ b ∈ listChunks bs (splitNonEmpty texts 0).1, ∀ t ∈ b,
        pyStrip t ≠ "") := by
  by_cases hemp : texts.isEmpty
  · have htx : texts = [] := List.isEmpty_iff.mp hemp
    subst htx
    exact ⟨[], by simp [translateTextsWithContext], rfl, by simp,
      by simp [splitNonEmpty], by simp [listChunks, chunksFuel, splitNonEmpty]⟩
  · by_cases hne : (splitNonEmpty texts 0).1.isEmpty
    · refine ⟨texts, ?_, rfl, fun i _ _ => rfl, ?_, ?_⟩
      · simp only [translateTextsWithContext, hemp]
        simp [hne]
      · intro j hj
        have hl := sne_len texts 0
        have : (splitNonEmpty texts 0).2.length = 0 := by
          rw [← hl]
          exact List.isEmpty_iff.mp hne ▸ rfl
        omega
      · intro b hb
        rw [List.isEmpty_iff.mp hne] at hb
        simp [listChunks, chunksFuel] at hb
    · have hbs0 : ¬ bs = 0 := by omega
      refine ⟨fillGo (placeGo (List.replicate texts.length "")
          (splitNonEmpty texts 0).2
          (translatedSeq orc texts context customDict glossary bs) 0) texts 0,
        ?_, ?_, ?_, ?_, ?_⟩
      · simp only [translateTextsWithContext, hemp]
        simp [hne, hbs0]
      · rw [fill_length, place_length, List.length_replicate]
      · intro i hi hstrip
        have hres : 0 + texts.length ≤
            (placeGo (List.replicate texts.length "")
              (splitNonEmpty texts 0).2
              (translatedSeq orc texts context customDict glossary bs) 0).length := by
          rw [place_length, List.length_replicate]
          omega
        have := fill_empty _ texts 0 hres i hi hstrip
        simpa using this
      · intro j hj
        have hmaplen : (translatedSeq orc texts context customDict glossary
            bs).length = (splitNonEmpty texts 0).2.length := by
          rw [translatedSeq_length, sne_len]
        have hjt : j < (translatedSeq orc texts context customDict glossary
            bs).length := by omega
        have hp : (splitNonEmpty texts 0).2.getD j 0 < texts.length := by
          have := sne_mem_bounds texts 0 _ (lGetD_mem _ j 0 hj)
          omega
        have hstrip : pyStrip (texts.getD ((splitNonEmpty texts 0).2.getD j 0)
            "") ≠ "" := by
          have hg := sne_getD texts 0 j hj
          simp only [Nat.sub_zero] at hg
          rw [hg]
          exact sne_texts_strip texts 0 _
            (lGetD_mem _ j "" (by rw [sne_len]; exact hj))
        have hfill := fill_keep (placeGo (List.replicate texts.length "")
            (splitNonEmpty texts 0).2
            (translatedSeq orc texts context customDict glossary bs) 0)
          texts 0 ((splitNonEmpty texts 0).2.getD j 0) hp hstrip
        simp only [Nat.zero_add] at hfill
        rw [hfill]
        have hplace := place_at (List.replicate texts.length "")
          (splitNonEmpty texts 0).2
          (translatedSeq orc texts context customDict glossary bs) 0
          (sne_pairwise texts 0)
          (fun x hx => by
            rw [List.length_replicate]
            have := sne_mem_bounds texts 0 x hx
            omega)
          (by omega) j hjt
        simpa using hplace
      · intro b hb t ht
        exact sne_texts_strip texts 0 t
          (chunksFuel_mem bs _ _ b t hb ht)

/-- C3 amended, witness: concrete identity backend, texts `["Hi", " "]`,
batch size 1. -/
theorem translate_batch_length_order_witness :
    0 < 1 ∧
    ∃ res : List String,
      translateTextsWithContext idOrc ["Hi", " "] none [] [] 1 = .ok res ∧
      res.length = (["Hi", " "] : List String).length ∧
      (∀ i, i < (["Hi", " "] : List String).length →
        pyStrip ((["Hi", " "] : List String).getD i "") = "" →
        res.getD i "" = (["Hi", " "] : List String).getD i "") ∧
      (∀ j, j < (splitNonEmpty ["Hi", " "] 0).2.length →
        res.getD ((splitNonEmpty ["Hi", " "] 0).2.getD j 0) "" =
          (translatedSeq idOrc ["Hi", " "] none [] [] 1).getD j "") ∧
      (∀ b ∈ listChunks 1 (splitNonEmpty ["Hi", " "] 0).1, ∀ t ∈ b,
        pyStrip t ≠ "") :=
  ⟨by decide,
   translate_batch_length_order idOrc ["Hi", " "] none [] [] 1 (by decide)⟩
